import Mathlib

/-!
Verification of the signal-bot-orx orchestration core.

Shallow embedding of the Python sources under `src/signal_bot_orx` and
`src/signal_box_orx`.  Times are modelled as naturals (the code uses
`time.monotonic()` floats only for comparisons and additions), state stores
are modelled as functions from keys to optional values, and strings are
modelled as `String` / `List Char` with ASCII conventions for the
whitespace and case operations the code performs.
-/

set_option maxRecDepth 10000

/-! ## Python string primitives (ASCII model) -/

/-- Whitespace characters recognised by Python `str.split` / `str.strip`
(ASCII subset: space, tab, newline, carriage return, vertical tab,
form feed). -/
def pyIsSpace (c : Char) : Bool :=
  c = ' ' || c = Char.ofNat 9 || c = Char.ofNat 10 || c = Char.ofNat 13 ||
  c = Char.ofNat 11 || c = Char.ofNat 12

/-- Python `str.strip()` on a character list. -/
def pyStrip (s : List Char) : List Char :=
  ((s.dropWhile pyIsSpace).reverse.dropWhile pyIsSpace).reverse

/-- Python `str.split()` (split on whitespace runs, dropping empties). -/
def pySplit : List Char → List (List Char)
  | [] => []
  | c :: rest =>
    if pyIsSpace c then pySplit rest
    else
      match pySplit rest with
      | [] => [[c]]
      | w :: ws =>
        match rest with
        | [] => [[c]]
        | r :: _ => if pyIsSpace r then [c] :: w :: ws else (c :: w) :: ws

/-- Python `" ".join(text.split())`: collapse whitespace runs to single
spaces and trim the ends. -/
def wsCollapse (s : List Char) : List Char :=
  (List.intersperse [' '] (pySplit s)).flatten

/-- ASCII lower-casing, as Python `str.lower()` acts on ASCII letters. -/
def pyToLower (c : Char) : Char :=
  if 'A' ≤ c ∧ c ≤ 'Z' then Char.ofNat (c.toNat + 32) else c

def pyLower (s : List Char) : List Char := s.map pyToLower

/-! ## `signal_box_orx/dedupe.py` — `DedupeCache` -/

/-- The `_seen` mapping of `DedupeCache`: key to recorded expiry. -/
def DedupeState : Type := String → Option Nat

/-- `DedupeCache._purge`: drop every key whose expiry is `≤ now`. -/
def dedupePurge (s : DedupeState) (now : Nat) : DedupeState :=
  fun k =>
    match s k with
    | some e => if e ≤ now then none else some e
    | none => none

/-- `DedupeCache.mark_once`.  Purges, then returns `false` iff the key is
present with a truthy expiry strictly greater than `now`; otherwise
records `now + ttl` and returns `true`. -/
def markOnce (s : DedupeState) (key : String) (now ttl : Nat) :
    Bool × DedupeState :=
  match dedupePurge s now key with
  | some e =>
    if e ≠ 0 ∧ now < e then (false, dedupePurge s now)
    else
      (true, fun k => if k = key then some (now + ttl) else dedupePurge s now k)
  | none =>
    (true, fun k => if k = key then some (now + ttl) else dedupePurge s now k)

/-- Fold a sequence of `mark_once` calls for one key over a list of call
times, collecting the returned booleans. -/
def markSeq (s : DedupeState) (key : String) (ttl : Nat) :
    List Nat → List Bool × DedupeState
  | [] => ([], s)
  | t :: ts =>
    let r := markOnce s key t ttl
    let rest := markSeq r.2 key ttl ts
    (r.1 :: rest.1, rest.2)

/-! ## `signal_bot_orx/chat_context.py` — `ChatContextStore` -/

structure ChatTurn where
  role : String
  content : String
  deriving DecidableEq

structure Conversation where
  turns : List ChatTurn
  expiresAt : Nat
  deriving DecidableEq

def ChatStore : Type := String → Option Conversation

def emptyChatStore : ChatStore := fun _ => none

/-- `ChatContextStore._purge`: drop conversations with `expires_at ≤ now`. -/
def chatPurge (st : ChatStore) (now : Nat) : ChatStore :=
  fun k =>
    match st k with
    | some c => if c.expiresAt ≤ now then none else some c
    | none => none

/-- `ChatContextStore.get_history`: purge, then return a snapshot of the
turns and refresh the expiry. -/
def getHistory (ttl : Nat) (st : ChatStore) (key : String) (now : Nat) :
    List ChatTurn × ChatStore :=
  let st1 := chatPurge st now
  match st1 key with
  | none => ([], st1)
  | some c =>
    (c.turns,
     fun k =>
       if k = key then some { c with expiresAt := now + max 1 ttl }
       else st1 k)

/-- `ChatContextStore.append_turn`: purge, append the `(user, assistant)`
pair, trim to the newest `2 × max(1, max_turns)` entries, refresh expiry. -/
def appendTurn (maxTurns ttl : Nat) (st : ChatStore) (key : String)
    (userText assistantText : String) (now : Nat) : ChatStore :=
  let st1 := chatPurge st now
  let c :=
    match st1 key with
    | some c => c
    | none => { turns := [], expiresAt := now + max 1 ttl }
  let turns1 :=
    c.turns ++ [⟨"user", userText⟩, ⟨"assistant", assistantText⟩]
  let maxMessages := max 1 maxTurns * 2
  let turns2 :=
    if maxMessages < turns1.length then
      turns1.drop (turns1.length - maxMessages)
    else turns1
  fun k =>
    if k = key then some { turns := turns2, expiresAt := now + max 1 ttl }
    else st1 k

/-- One `append_turn` call record: key, user text, assistant text, time. -/
def applyAppends (maxTurns ttl : Nat) (st : ChatStore)
    (ops : List (String × String × String × Nat)) : ChatStore :=
  ops.foldl (fun acc op => appendTurn maxTurns ttl acc op.1 op.2.1 op.2.2.1 op.2.2.2) st

/-- Every stored conversation holds at most `2 * m` turns. -/
def turnsBounded (m : Nat) (st : ChatStore) : Prop :=
  ∀ k c, st k = some c → c.turns.length ≤ 2 * m

/-! ## Search results and pending-selection state -/

/-- Canonical search-result shape (`SearchResult` dataclass; the service
side additionally reads `thumbnail_url`). -/
structure SearchResult where
  mode : String
  title : String
  url : String
  snippet : String
  source : Option String := none
  date : Option String := none
  imageUrl : Option String := none
  thumbnailUrl : Option String := none
  deriving DecidableEq

/-- `search_context.PendingFollowupState`. -/
structure PendingFollowupState where
  originalPrompt : String
  templatePrompt : String
  reason : String
  createdAt : Nat
  attempts : Nat
  deriving DecidableEq

/-- Modelled from the spec: `PendingVideoSelectionState` is imported by
`search_service.py` but its dataclass is absent from `search_context.py`
in the sources; per the spec it holds the query and the ordered list of
results shown in the numbered video list. -/
structure PendingVideoSelectionState where
  query : String
  results : List SearchResult
  deriving DecidableEq

/-- Modelled from the spec: `PendingJmailSelectionState` is imported by
`search_service.py` but its dataclass is absent from `search_context.py`
in the sources; per the spec it holds the query and the ordered list of
results shown in the numbered email list. -/
structure PendingJmailSelectionState where
  query : String
  results : List SearchResult
  deriving DecidableEq

/-- The three per-conversation pending slots the router can clear. -/
structure PendingSlots where
  followup : Option PendingFollowupState
  video : Option PendingVideoSelectionState
  jmail : Option PendingJmailSelectionState
  deriving DecidableEq

/-- Modelled from the spec: clearing a pending slot empties it
(`clear_pending_followup` exists in `search_context.py`; the video and
jmail clears are called through `SearchService` but their store methods
are absent from the sources). -/
def clearPendingFollowup (s : PendingSlots) : PendingSlots :=
  { s with followup := none }

def clearPendingVideoSelection (s : PendingSlots) : PendingSlots :=
  { s with video := none }

def clearPendingJmailSelection (s : PendingSlots) : PendingSlots :=
  { s with jmail := none }

/-- The explicit slash commands of the router's classification step. -/
inductive SlashCommand where
  | source
  | searchFamily (mode : String)
  | imagine
  | weather
  | forecast
  deriving DecidableEq

/-- The pending-slot clears `WebhookHandler.handle_webhook` performs before
dispatching each explicit slash command: the `/source`, search-family and
`/imagine` branches call `_clear_pending_followup_state` then
`_clear_pending_video_selection_state`; the `/weather` and `/forecast`
branches clear nothing. -/
def slashCommandPendingClears : SlashCommand → PendingSlots → PendingSlots
  | .source, s => clearPendingVideoSelection (clearPendingFollowup s)
  | .searchFamily _, s => clearPendingVideoSelection (clearPendingFollowup s)
  | .imagine, s => clearPendingVideoSelection (clearPendingFollowup s)
  | .weather, s => s
  | .forecast, s => s

/-! ## `webhook.parse_numeric_selection` and the selection resolvers -/

def isDigitChar (c : Char) : Bool := '0' ≤ c && c ≤ '9'

def digitsToNat (s : List Char) : Nat :=
  s.foldl (fun acc c => acc * 10 + (c.toNat - 48)) 0

/-- `webhook.parse_numeric_selection`: full-match `\d+` on the stripped
text, reject values `≤ 0`. -/
def parseNumericSelection (text : List Char) : Option Nat :=
  let stripped := pyStrip text
  if stripped ≠ [] ∧ stripped.all isDigitChar then
    if digitsToNat stripped ≤ 0 then none else some (digitsToNat stripped)
  else none

def defaultSearchResult : SearchResult :=
  { mode := "", title := "", url := "", snippet := "" }

def numberBetweenMessage (n : Nat) : String :=
  "Please choose a number between 1 and " ++ toString n ++ "."

/-- `SearchService.resolve_video_selection`.  `fetch` abstracts the
thumbnail HTTP GET: `some (bytes, contentType)` models a 200 response with
non-empty content, `none` any failure. -/
def resolveVideoSelection (fetch : String → Option (List Nat × String))
    (pending : Option PendingVideoSelectionState) (selection : Nat) :
    Except String (Option (List Nat) × Option String × String × String) :=
  match pending with
  | none => .error "No pending video results. Run /videos <query> first."
  | some p =>
    if p.results = [] then
      .error "No pending video results. Run /videos <query> first."
    else if selection < 1 ∨ p.results.length < selection then
      .error (numberBetweenMessage p.results.length)
    else
      let selected := p.results.getD (selection - 1) defaultSearchResult
      let thumb := pyStrip (selected.thumbnailUrl.getD "").data
      if thumb = [] ∨
          ¬ (("http://".data.isPrefixOf thumb) ∨
             ("https://".data.isPrefixOf thumb)) then
        .ok (none, none, selected.url, selected.title)
      else
        match fetch (String.mk thumb) with
        | some (bytes, contentType) =>
          .ok (some bytes, some contentType, selected.url, selected.title)
        | none => .ok (none, none, selected.url, selected.title)

/-- `SearchService.resolve_jmail_selection`.  `summarize` abstracts the
model-summary step (including the context recording) applied to the
selected result. -/
def resolveJmailSelection
    (summarize : PendingJmailSelectionState → SearchResult → Except String String)
    (pending : Option PendingJmailSelectionState) (selection : Nat) :
    Except String String :=
  match pending with
  | none => .error "No pending JMail results. Run /jmail <query> first."
  | some p =>
    if p.results = [] then
      .error "No pending JMail results. Run /jmail <query> first."
    else if selection < 1 ∨ p.results.length < selection then
      .error (numberBetweenMessage p.results.length)
    else
      summarize p (p.results.getD (selection - 1) defaultSearchResult)

/-! ## `search_client.py` — backend chain and merge strategies -/

/-- The `ddgs` exception classes the client distinguishes
(`RatelimitException`, `TimeoutException`, generic `DDGSException`). -/
inductive DDGSExc where
  | ratelimit (msg : String)
  | timeout (msg : String)
  | other (msg : String)
  deriving DecidableEq

/-- A raw provider result dict, restricted to the keys
`_normalize_result` reads for the search/news modes. -/
structure RawResult where
  title : Option String := none
  body : Option String := none
  content : Option String := none
  href : Option String := none
  url : Option String := none
  source : Option String := none
  date : Option String := none
  image : Option String := none
  deriving DecidableEq

/-- `search_client._as_non_empty` on an optional string value. -/
def asNonEmpty : Option String → Option String
  | some s => if pyStrip s.data = [] then none else some (String.mk (pyStrip s.data))
  | none => none

/-- `search_client._normalize_result` for the non-image modes. -/
def normalizeResult (mode : String) (r : RawResult) : Option SearchResult :=
  let title := (asNonEmpty r.title).getD "Untitled"
  let snippet := ((asNonEmpty r.body).orElse (fun _ => asNonEmpty r.content)).getD ""
  match (asNonEmpty r.href).orElse (fun _ => asNonEmpty r.url) with
  | none => none
  | some u =>
    some { mode := mode, title := title, url := u, snippet := snippet,
           source := asNonEmpty r.source, date := asNonEmpty r.date,
           imageUrl := asNonEmpty r.image }

/-- `search_client._normalize_search_results` (list of dicts already
filtered by `_normalize_raw_results`). -/
def normalizeSearchResults (mode : String) (raw : List RawResult) :
    List SearchResult :=
  raw.filterMap (normalizeResult mode)

/-- `search_client._dedupe_backends`: trim, lower-case, drop empties and
duplicates preserving first occurrence. -/
def dedupeBackendsAux (seen : List String) : List String → List String
  | [] => []
  | b :: rest =>
    let n := String.mk (pyLower (pyStrip b.data))
    if n = "" ∨ n ∈ seen then dedupeBackendsAux seen rest
    else n :: dedupeBackendsAux (n :: seen) rest

def dedupeBackends (bs : List String) : List String := dedupeBackendsAux [] bs

/-- `search_client._dedupe_search_results`: URL-dedupe (trimmed key),
dropping empty keys. -/
def dedupeSearchResultsAux (seen : List String) :
    List SearchResult → List SearchResult
  | [] => []
  | r :: rest =>
    let key := String.mk (pyStrip r.url.data)
    if key = "" ∨ key ∈ seen then dedupeSearchResultsAux seen rest
    else r :: dedupeSearchResultsAux (key :: seen) rest

def dedupeSearchResults (rs : List SearchResult) : List SearchResult :=
  dedupeSearchResultsAux [] rs

inductive MergeStrategy where
  | firstNonEmpty
  | aggregate
  deriving DecidableEq

/-- The `for backend in attempts` loop of
`search_client._search_mode_with_backends`, carrying `last_exception` and
the aggregate accumulator; `outcomes b` models `_run_backend_search` for
backend `b` (a raw result list, or one of the caught `ddgs` exceptions). -/
def backendLoop (mode : String) (maxResults : Nat) (strategy : MergeStrategy)
    (outcomes : String → Except DDGSExc (List RawResult)) :
    List String → Option DDGSExc → List SearchResult →
    Except DDGSExc (List SearchResult)
  | [], lastExc, agg =>
    let exhausted : Except DDGSExc (List SearchResult) :=
      match lastExc with
      | some e => .error e
      | none => .ok []
    match strategy with
    | .aggregate =>
      let capped := (dedupeSearchResults agg).take (max 1 maxResults)
      if capped ≠ [] then .ok capped else exhausted
    | .firstNonEmpty => exhausted
  | b :: rest, lastExc, agg =>
    match outcomes b with
    | .error e => backendLoop mode maxResults strategy outcomes rest (some e) agg
    | .ok raw =>
      let normalized := normalizeSearchResults mode raw
      match strategy with
      | .firstNonEmpty =>
        if normalized ≠ [] then .ok normalized
        else backendLoop mode maxResults strategy outcomes rest lastExc agg
      | .aggregate =>
        backendLoop mode maxResults strategy outcomes rest lastExc
          (agg ++ normalized)

/-- `search_client._search_mode_with_backends`. -/
def searchModeWithBackends (mode : String) (backends : List String)
    (maxResults : Nat) (strategy : MergeStrategy)
    (outcomes : String → Except DDGSExc (List RawResult)) :
    Except DDGSExc (List SearchResult) :=
  backendLoop mode maxResults strategy outcomes (dedupeBackends backends) none []

/-- The user-visible message `SearchClient.search` maps each caught `ddgs`
exception to. -/
def searchErrorMessageOfExc : DDGSExc → String
  | .ratelimit _ => "Search service is rate-limited. Try again soon."
  | .timeout _ => "Search service timed out. Try again."
  | .other m => "Search failed: " ++ m

/-- `SearchClient.search` composed with `_search_sync` for the search/news
modes: empty-query check, backend chain, empty-result error, and the
exception-to-`SearchError` mapping of the `except` clauses. -/
def searchClientSearch (query : List Char) (mode : String)
    (backends : List String) (maxResults : Nat) (strategy : MergeStrategy)
    (outcomes : String → Except DDGSExc (List RawResult)) :
    Except String (List SearchResult) :=
  if wsCollapse query = [] then .error "Search query is empty."
  else
    match searchModeWithBackends mode backends maxResults strategy outcomes with
    | .error e => .error (searchErrorMessageOfExc e)
    | .ok [] => .error "No search results found."
    | .ok rs => .ok rs

/-- The last exception produced while scanning a backend sequence
(mirrors how the loop's `last_exception` ends up). -/
def lastExcAmong (outcomes : String → Except DDGSExc (List RawResult)) :
    Option DDGSExc → List String → Option DDGSExc
  | acc, [] => acc
  | acc, b :: rest =>
    match outcomes b with
    | .error e => lastExcAmong outcomes (some e) rest
    | .ok _ => lastExcAmong outcomes acc rest

/-! ## `signal_client.py` — group candidate loop and DM fallback -/

/-- `SignalSendError`: user-facing message plus optional HTTP status and
the recipient the failing post addressed. -/
structure SignalSendError where
  message : String
  statusCode : Option Nat := none
  recipient : Option String := none
  deriving DecidableEq

/-- The outcome of one `_post_to_recipient` call, its internal
network/5xx retry loop already resolved: a success (status `< 400`), a
final HTTP error status with extracted detail, or a network failure after
both attempts. -/
inductive PostOutcome where
  | success
  | failStatus (status : Nat) (detail : String)
  | failNetwork
  deriving DecidableEq

/-- The `SignalSendError` (if any) a `_post_to_recipient` call raises for
a given recipient and outcome, with the message formats of
`signal_client.py`. -/
def postErrorOf (recipient : String) : PostOutcome → Option SignalSendError
  | .success => none
  | .failStatus st detail =>
    some { message := "Signal send failed with status " ++ toString st ++
             " (recipient=" ++ recipient ++ "): " ++ detail,
           statusCode := some st, recipient := some recipient }
  | .failNetwork =>
    some { message := "Signal send failed due to network error (recipient=" ++
             recipient ++ ")",
           statusCode := none, recipient := some recipient }

/-- Result of the `for recipient in resolved.recipients` loop of
`_post_with_retry`. -/
inductive LoopResult where
  | sent
  | raised (e : SignalSendError)
  | exhausted (lastErr : Option SignalSendError)
  deriving DecidableEq

/-- The candidate loop of `_post_with_retry`: each candidate is paired
with its post outcome; a 400 records `last_error` and continues, any
other error re-raises, a success returns.  Also returns the recipients
actually posted to, in order. -/
def groupSendLoop :
    List (String × PostOutcome) → Option SignalSendError →
    LoopResult × List String
  | [], acc => (.exhausted acc, [])
  | (r, o) :: rest, acc =>
    match postErrorOf r o with
    | none => (.sent, [r])
    | some e =>
      if e.statusCode = some 400 then
        ((groupSendLoop rest (some e)).1, r :: (groupSendLoop rest (some e)).2)
      else (.raised e, [r])

/-- The error `_post_with_retry` raises after the DM fallback also fails:
the last group error's text, annotated with the resolver metadata. -/
def derivedGroupError (last : SignalSendError) (cacheRefreshed : Bool)
    (candidateCount : Nat) : SignalSendError :=
  { message := last.message ++ " (resolver_cache_refreshed=" ++
      (if cacheRefreshed then "True" else "False") ++
      ", candidate_count=" ++ toString candidateCount ++
      ", final_candidate=" ++ last.recipient.getD "None" ++ ")",
    statusCode := last.statusCode, recipient := last.recipient }

/-- `SignalClient._post_with_retry` for a group target: the candidate
loop, then — when every candidate failed with 400 and a non-empty
`fallback_recipient` is given — one DM attempt to the fallback, raising
the derived group error if that also fails.  `attempts` pairs the
resolved candidates with their call outcomes; `fallback` pairs the
fallback recipient with the outcome its single call would have. -/
def postWithRetryGroup (attempts : List (String × PostOutcome))
    (cacheRefreshed : Bool) (fallback : Option (String × PostOutcome)) :
    Except SignalSendError Unit × List String :=
  match groupSendLoop attempts none with
  | (.sent, tried) => (.ok (), tried)
  | (.raised e, tried) => (.error e, tried)
  | (.exhausted none, tried) =>
    (.error { message := "Signal send failed unexpectedly" }, tried)
  | (.exhausted (some le), tried) =>
    match fallback with
    | some (fb, fo) =>
      if fb ≠ "" ∧ le.statusCode = some 400 then
        match postErrorOf fb fo with
        | none => (.ok (), tried ++ [fb])
        | some _ =>
          (.error (derivedGroupError le cacheRefreshed attempts.length),
           tried ++ [fb])
      else
        (.error (derivedGroupError le cacheRefreshed attempts.length), tried)
    | none =>
      (.error (derivedGroupError le cacheRefreshed attempts.length), tried)

/-! ## `group_resolver.py` — alias encoding (UTF-8 and base64) -/

/-- Python `str.replace(a, b)` for single characters. -/
def pyReplaceChar (a b : Char) (s : List Char) : List Char :=
  s.map (fun c => if c = a then b else c)

/-- Standard UTF-8 encoding of one unicode scalar value. -/
def utf8EncodeChar (n : Nat) : List Nat :=
  if n < 0x80 then [n]
  else if n < 0x800 then [0xC0 + n / 64, 0x80 + n % 64]
  else if n < 0x10000 then
    [0xE0 + n / 4096, 0x80 + n / 64 % 64, 0x80 + n % 64]
  else
    [0xF0 + n / 262144, 0x80 + n / 4096 % 64, 0x80 + n / 64 % 64,
     0x80 + n % 64]

/-- Python `str.encode("utf-8")`. -/
def utf8Encode (s : List Char) : List Nat :=
  (s.map (fun c => utf8EncodeChar c.toNat)).flatten

/-- One step of strict UTF-8 decoding, as Python `bytes.decode("utf-8")`
performs it: parse one scalar from the front, rejecting stray continuation
bytes, overlong forms, surrogates and scalars past `0x10FFFF`. -/
def utf8DecodeStep : List Nat → Option (Nat × List Nat)
  | [] => none
  | b :: rest =>
    if b < 0x80 then some (b, rest)
    else if b < 0xC2 then none
    else if b < 0xE0 then
      match rest with
      | b1 :: rest2 =>
        if 0x80 ≤ b1 ∧ b1 < 0xC0 then
          some ((b - 0xC0) * 64 + (b1 - 0x80), rest2)
        else none
      | [] => none
    else if b < 0xF0 then
      match rest with
      | b1 :: b2 :: rest2 =>
        if 0x80 ≤ b1 ∧ b1 < 0xC0 ∧ 0x80 ≤ b2 ∧ b2 < 0xC0 then
          if (b - 0xE0) * 4096 + (b1 - 0x80) * 64 + (b2 - 0x80) < 0x800 ∨
              (0xD800 ≤ (b - 0xE0) * 4096 + (b1 - 0x80) * 64 + (b2 - 0x80) ∧
               (b - 0xE0) * 4096 + (b1 - 0x80) * 64 + (b2 - 0x80) < 0xE000) then
            none
          else
            some ((b - 0xE0) * 4096 + (b1 - 0x80) * 64 + (b2 - 0x80), rest2)
        else none
      | _ => none
    else if b < 0xF5 then
      match rest with
      | b1 :: b2 :: b3 :: rest2 =>
        if 0x80 ≤ b1 ∧ b1 < 0xC0 ∧ 0x80 ≤ b2 ∧ b2 < 0xC0 ∧
            0x80 ≤ b3 ∧ b3 < 0xC0 then
          if (b - 0xF0) * 262144 + (b1 - 0x80) * 4096 + (b2 - 0x80) * 64 +
                (b3 - 0x80) < 0x10000 ∨
              0x110000 ≤ (b - 0xF0) * 262144 + (b1 - 0x80) * 4096 +
                (b2 - 0x80) * 64 + (b3 - 0x80) then
            none
          else
            some ((b - 0xF0) * 262144 + (b1 - 0x80) * 4096 +
              (b2 - 0x80) * 64 + (b3 - 0x80), rest2)
        else none
      | _ => none
    else none

/-- Decoding driver, fuelled by the input length (each step consumes at
least one byte). -/
def utf8DecodeLoop : Nat → List Nat → Option (List Char)
  | 0, l => if l = [] then some [] else none
  | fuel + 1, l =>
    if l = [] then some []
    else
      match utf8DecodeStep l with
      | none => none
      | some (n, rest2) =>
        (utf8DecodeLoop fuel rest2).map (fun cs => Char.ofNat n :: cs)

/-- Python `bytes.decode("utf-8")` (strict). -/
def utf8Decode (l : List Nat) : Option (List Char) :=
  utf8DecodeLoop l.length l

def b64Alphabet : List Char :=
  "ABCDEFGHIJKLMNOPQRSTUVWXYZabcdefghijklmnopqrstuvwxyz0123456789+/".data

def b64Char (i : Nat) : Char := b64Alphabet.getD i '?'

def b64DecodeChar (c : Char) : Option Nat :=
  if c ∈ b64Alphabet then some (b64Alphabet.indexOf c) else none

/-- Standard base64 encoding with padding (`base64.b64encode`). -/
def b64Encode : List Nat → List Char
  | [] => []
  | [a] => [b64Char (a / 4), b64Char (a % 4 * 16), '=', '=']
  | [a, b] =>
    [b64Char (a / 4), b64Char (a % 4 * 16 + b / 16), b64Char (b % 16 * 4), '=']
  | a :: b :: c :: rest =>
    b64Char (a / 4) :: b64Char (a % 4 * 16 + b / 16) ::
    b64Char (b % 16 * 4 + c / 64) :: b64Char (c % 64) :: b64Encode rest

/-- Base64 decoding of a 4-aligned character stream, `=` accepted only as
final padding (the only shapes `base64.b64decode` meets here after its
non-alphabet filter and length check). -/
def b64Decode : List Char → Option (List Nat)
  | [] => some []
  | c1 :: c2 :: c3 :: c4 :: rest =>
    (b64DecodeChar c1).bind (fun x1 =>
    (b64DecodeChar c2).bind (fun x2 =>
      if c3 = '=' ∧ c4 = '=' ∧ rest = [] then some [x1 * 4 + x2 / 16]
      else if c4 = '=' ∧ rest = [] then
        (b64DecodeChar c3).map
          (fun x3 => [x1 * 4 + x2 / 16, x2 % 16 * 16 + x3 / 4])
      else
        (b64DecodeChar c3).bind (fun x3 =>
        (b64DecodeChar c4).bind (fun x4 =>
          (b64Decode rest).map
            (fun bs => (x1 * 4 + x2 / 16) :: (x2 % 16 * 16 + x3 / 4) ::
              (x3 % 4 * 64 + x4) :: bs)))))
  | _ => none

/-- `base64.b64decode(data, validate=False)`: discard characters outside
the alphabet and `=`, then require 4-alignment. -/
def b64DecodePython (s : List Char) : Option (List Nat) :=
  let cleaned := s.filter (fun c => c ∈ b64Alphabet ∨ c = '=')
  if cleaned.length % 4 = 0 then b64Decode cleaned else none

/-- `group_resolver._encode_internal_id`. -/
def encodeInternalId (s : List Char) : List Char := b64Encode (utf8Encode s)

/-- `group_resolver._decode_group_suffix`. -/
def decodeGroupSuffix (suffix : List Char) : Option (List Char) :=
  let normalized :=
    pyReplaceChar '_' '/' (pyReplaceChar '-' '+' (pyStrip suffix))
  if normalized = [] then none
  else
    let padding := List.replicate ((4 - normalized.length % 4) % 4) '='
    match b64DecodePython (normalized ++ padding) with
    | none => none
    | some bytes =>
      match utf8Decode bytes with
      | none => none
      | some text =>
        if pyStrip text = [] then none else some (pyStrip text)

/-! ## `search_service.py` — follow-up ambiguity detection -/

/-- Regex `\w` on ASCII. -/
def isWordChar (c : Char) : Bool :=
  ('a' ≤ c && c ≤ 'z') || ('A' ≤ c && c ≤ 'Z') || ('0' ≤ c && c ≤ '9') ||
  c = '_'

/-- The apostrophe character (U+0027). -/
def apoChar : Char := Char.ofNat 39

/-- `\b` to the right of a match: end of text or a non-word character. -/
def wordBoundaryAfter : List Char → Bool
  | [] => true
  | c :: _ => !isWordChar c

/-- The token `w` occurs at the head of `s` with a right word boundary. -/
def wordAt (w s : List Char) : Bool :=
  w.isPrefixOf s && wordBoundaryAfter (s.drop w.length)

/-- Generic `re.search`-style scanner: try `hit` at every position,
tracking whether the previous character admits a left word boundary. -/
def scanFrom (hit : List Char → Bool) : List Char → Bool → Bool
  | [], prevOk => prevOk && hit []
  | c :: rest, prevOk =>
    (prevOk && hit (c :: rest)) || scanFrom hit rest (!isWordChar c)

def pronounWords : List (List Char) :=
  [['h', 'e'], ['s', 'h', 'e'], ['t', 'h', 'e', 'y'], ['h', 'i', 'm'],
   ['h', 'e', 'r'], ['t', 'h', 'e', 'm'], ['i', 't']]

/-- `\b(?:he|she|they|him|her|them|it)\b` (first ambiguous-followup
pattern) searched over the lowered prompt. -/
def containsPronounWord (s : List Char) : Bool :=
  pronounWords.any (fun w => scanFrom (wordAt w) s true)

/-- `person\b` immediately here. -/
def personTail (s : List Char) : Bool :=
  wordAt ['p', 'e', 'r', 's', 'o', 'n'] s

/-- `\s+person\b` immediately here. -/
def spacesThenPerson : List Char → Bool
  | [] => false
  | c :: rest => pyIsSpace c && (personTail rest || spacesThenPerson rest)

/-- `(?:that|this)\s+person\b` at the head (left boundary handled by the
scanner). -/
def thatPersonAt (s : List Char) : Bool :=
  (['t', 'h', 'a', 't'].isPrefixOf s && spacesThenPerson (s.drop 4)) ||
  (['t', 'h', 'i', 's'].isPrefixOf s && spacesThenPerson (s.drop 4))

/-- `\b(?:that|this)\s+person\b` (second ambiguous-followup pattern). -/
def containsThatThisPerson (s : List Char) : Bool :=
  scanFrom thatPersonAt s true

/-- One of `ws` here, each with its right `\b`. -/
def wordsAtBoundary (ws : List (List Char)) (s : List Char) : Bool :=
  ws.any (fun w => wordAt w s)

/-- `\s+(?:w₁|…|wₙ)\b` here. -/
def spacesThenWords (ws : List (List Char)) : List Char → Bool
  | [] => false
  | c :: rest =>
    pyIsSpace c && (wordsAtBoundary ws rest || spacesThenWords ws rest)

/-- `^\s*what about (?:him|her|them)\b` (third ambiguous-followup
pattern). -/
def whatAboutPronoun (s : List Char) : Bool :=
  let t := s.dropWhile pyIsSpace
  "what about ".data.isPrefixOf t &&
    wordsAtBoundary [['h', 'i', 'm'], ['h', 'e', 'r'], ['t', 'h', 'e', 'm']]
      (t.drop 11)

def subjectPronouns : List (List Char) :=
  [['h', 'e'], ['s', 'h', 'e'], ['t', 'h', 'e', 'y'], ['i', 't']]

def whoApoS : List Char := ['w', 'h', 'o', apoChar, 's']

def whatApoS : List Char := ['w', 'h', 'a', 't', apoChar, 's']

/-- `^\s*who(?:'s| is)\s+(?:he|she|they|it)\b` (first pronoun-only
pattern). -/
def pronounOnly1 (s : List Char) : Bool :=
  let t := s.dropWhile pyIsSpace
  (whoApoS.isPrefixOf t && spacesThenWords subjectPronouns (t.drop 5)) ||
  ("who is".data.isPrefixOf t && spacesThenWords subjectPronouns (t.drop 6))

/-- `^\s*what(?:'s| is)\s+(?:he|she|they|it)\b` (second pronoun-only
pattern). -/
def pronounOnly2 (s : List Char) : Bool :=
  let t := s.dropWhile pyIsSpace
  (whatApoS.isPrefixOf t && spacesThenWords subjectPronouns (t.drop 6)) ||
  ("what is".data.isPrefixOf t && spacesThenWords subjectPronouns (t.drop 7))

def pronounOnly3Subjects : List (List Char) :=
  [['h', 'i', 'm'], ['h', 'e', 'r'], ['t', 'h', 'e', 'm'], ['i', 't'],
   ['t', 'h', 'a', 't', ' ', 'p', 'e', 'r', 's', 'o', 'n'],
   ['t', 'h', 'i', 's', ' ', 'p', 'e', 'r', 's', 'o', 'n']]

/-- `^\s*(?:tell me about|what do you know about|give me (?:info|background)
on)\s+(?:him|her|them|it|that person|this person)\b` (third pronoun-only
pattern). -/
def pronounOnly3 (s : List Char) : Bool :=
  let t := s.dropWhile pyIsSpace
  ("tell me about".data.isPrefixOf t &&
    spacesThenWords pronounOnly3Subjects (t.drop 13)) ||
  ("what do you know about".data.isPrefixOf t &&
    spacesThenWords pronounOnly3Subjects (t.drop 22)) ||
  ("give me info on".data.isPrefixOf t &&
    spacesThenWords pronounOnly3Subjects (t.drop 15)) ||
  ("give me background on".data.isPrefixOf t &&
    spacesThenWords pronounOnly3Subjects (t.drop 21))

/-- `\s+person` consuming the remainder exactly (for `fullmatch`). -/
def spacesThenPersonEnd : List Char → Bool
  | [] => false
  | c :: rest =>
    pyIsSpace c && (rest = ['p', 'e', 'r', 's', 'o', 'n'] ||
      spacesThenPersonEnd rest)

/-- `pattern.fullmatch(subject)` over the three ambiguous-followup
patterns. -/
def ambiguousFullmatch (subject : List Char) : Bool :=
  pronounWords.any (fun w => subject = w) ||
  (['t', 'h', 'a', 't'].isPrefixOf subject ∧
    spacesThenPersonEnd (subject.drop 4) : Bool) ||
  (['t', 'h', 'i', 's'].isPrefixOf subject ∧
    spacesThenPersonEnd (subject.drop 4) : Bool) ||
  (let t := subject.dropWhile pyIsSpace
   "what about ".data.isPrefixOf t &&
     [['h', 'i', 'm'], ['h', 'e', 'r'], ['t', 'h', 'e', 'm']].any
       (fun w => t.drop 11 = w))

def entityPrefixes : List (List Char) :=
  [whoApoS, "who is".data, "tell me about".data,
   "what do you know about".data, "give me background on".data,
   "give me info on".data]

def rejectedSubjects : List (List Char) :=
  [['h', 'e'], ['s', 'h', 'e'], ['t', 'h', 'e', 'y'], ['i', 't'],
   ['h', 'i', 'm'], ['h', 'e', 'r'], ['t', 'h', 'e', 'm'],
   ['t', 'h', 'a', 't', ' ', 'p', 'e', 'r', 's', 'o', 'n'],
   ['t', 'h', 'i', 's', ' ', 'p', 'e', 'r', 's', 'o', 'n']]

/-- `search_service._contains_explicit_entity_text`. -/
def containsExplicitEntityText (prompt : List Char) : Bool :=
  entityPrefixes.any (fun p =>
    p.isPrefixOf prompt &&
    (let rest := prompt.drop p.length
     (rest.takeWhile pyIsSpace ≠ [] : Bool) &&
     (let subject := wsCollapse rest
      (subject ≠ [] : Bool) &&
      !(ambiguousFullmatch subject) &&
      !(rejectedSubjects.any (fun w => subject = w)))))

/-- `search_service._is_ambiguous_followup_prompt`. -/
def isAmbiguousFollowupPrompt (prompt : List Char) : Bool :=
  let lowered := wsCollapse (pyLower prompt)
  if lowered = [] then false
  else if pronounOnly1 lowered || pronounOnly2 lowered ||
      pronounOnly3 lowered then true
  else if !(containsPronounWord lowered || containsThatThisPerson lowered ||
      whatAboutPronoun lowered) then false
  else !(containsExplicitEntityText lowered)

/-- `FollowupResolutionDecision` restricted to the fields the early
returns populate. -/
structure FollowupResolutionDecision where
  resolvedPrompt : List Char
  needsClarification : Bool
  clarificationText : Option String
  reason : String
  usedContext : Bool
  confidence : ℚ
  subjectHint : Option (List Char)
  deriving DecidableEq

/-- `SearchService.resolve_followup_prompt` up to its deterministic early
returns; `ambiguousBranch` abstracts the rest of the method (deterministic
subject selection, the no-context clarification and the chat-oracle call),
returning its decision and whether the chat oracle was consulted. -/
def resolveFollowupPrompt (prompt : List Char)
    (ambiguousBranch : List Char → FollowupResolutionDecision × Bool) :
    FollowupResolutionDecision × Bool :=
  let normalized := wsCollapse prompt
  if normalized = [] then
    ({ resolvedPrompt := [], needsClarification := false,
       clarificationText := none, reason := "empty_prompt",
       usedContext := false, confidence := 0, subjectHint := none }, false)
  else if !(isAmbiguousFollowupPrompt normalized) then
    ({ resolvedPrompt := normalized, needsClarification := false,
       clarificationText := none, reason := "not_followup",
       usedContext := false, confidence := 1, subjectHint := none }, false)
  else ambiguousBranch normalized

/-! ## `chat_prompt.py` — `coerce_plain_text_reply`

Each `re.sub` pass is embedded as a left-to-right, non-overlapping
scanner: a matcher is tried at every position of the original text (with
the previous original character available for look-behinds and the
MULTILINE `^`), and on a match its replacement is emitted and the scan
resumes after the consumed span. -/

/-- Run a substitution scan: `hit prev s` returns the replacement and the
number of characters consumed (≥ 1) when a match starts at `s`. -/
def subScanAux (hit : Option Char → List Char → Option (List Char × Nat)) :
    Nat → Option Char → List Char → List Char
  | 0, _, s => s
  | _ + 1, _, [] => []
  | fuel + 1, prev, c :: rest =>
    match hit prev (c :: rest) with
    | some (r, k) =>
      if k = 0 then c :: subScanAux hit fuel (some c) rest
      else r ++ subScanAux hit fuel (((c :: rest).take k).getLast?)
        ((c :: rest).drop k)
    | none => c :: subScanAux hit fuel (some c) rest

def runSub (hit : Option Char → List Char → Option (List Char × Nat))
    (s : List Char) : List Char :=
  subScanAux hit s.length none s

/-- First index at which `pat` occurs. -/
def findSubstr (pat : List Char) : List Char → Option Nat
  | [] => if pat = [] then some 0 else none
  | c :: rest =>
    if pat.isPrefixOf (c :: rest) then some 0
    else (findSubstr pat rest).map (· + 1)

/-- First index of `pat`, failing at a newline (lazy `(.+?)` without
DOTALL cannot cross lines). -/
def findNoNL (pat : List Char) : List Char → Option Nat
  | [] => none
  | c :: rest =>
    if pat.isPrefixOf (c :: rest) then some 0
    else if c = '\n' then none
    else (findNoNL pat rest).map (· + 1)

def fenceLangChar (c : Char) : Bool :=
  ('a' ≤ c && c ≤ 'z') || ('A' ≤ c && c ≤ 'Z') || ('0' ≤ c && c ≤ '9') ||
  c = '-' || c = '_'

/-- ``` ```[a-zA-Z0-9_-]*\s*\n?(.*?)``` ``` (DOTALL), replaced by the
stripped group. -/
def fenceTry (_ : Option Char) (s : List Char) : Option (List Char × Nat) :=
  if ("```".data).isPrefixOf s then
    let after := s.drop 3
    let l := (after.takeWhile fenceLangChar).length
    let w := ((after.drop l).takeWhile pyIsSpace).length
    let rest := after.drop (l + w)
    match findSubstr "```".data rest with
    | some j => some (pyStrip (rest.take j), 3 + l + w + j + 3)
    | none => none
  else none

/-- `\[([^\]]+)\]\((https?://[^)\s]+)\)` replaced by `\1 (\2)`. -/
def linkTry (_ : Option Char) (s : List Char) : Option (List Char × Nat) :=
  match s with
  | '[' :: rest =>
    let g1 := rest.takeWhile (fun c => c ≠ ']')
    if g1.length = 0 then none
    else
      match rest.drop g1.length with
      | ']' :: '(' :: rest3 =>
        let scheme :=
          if ("https://".data).isPrefixOf rest3 then some "https://".data
          else if ("http://".data).isPrefixOf rest3 then some "http://".data
          else none
        match scheme with
        | none => none
        | some sch =>
          let rest4 := rest3.drop sch.length
          let url := rest4.takeWhile (fun c => c ≠ ')' && !pyIsSpace c)
          if url.length = 0 then none
          else
            match rest4.drop url.length with
            | ')' :: _ =>
              some (g1 ++ " (".data ++ sch ++ url ++ [')'],
                1 + g1.length + 2 + sch.length + url.length + 1)
            | _ => none
      | _ => none
  | _ => none

/-- `` `([^`]+)` `` replaced by the group. -/
def inlineCodeTry (_ : Option Char) (s : List Char) :
    Option (List Char × Nat) :=
  match s with
  | '`' :: rest =>
    let g := rest.takeWhile (fun c => c ≠ '`')
    if g.length = 0 then none
    else
      match rest.drop g.length with
      | '`' :: _ => some (g, g.length + 2)
      | _ => none
  | _ => none

/-- MULTILINE `^`: start of text or just after a newline. -/
def atLineStart : Option Char → Bool
  | none => true
  | some c => c = '\n'

/-- `^\s{0,3}#{1,6}\s*` (MULTILINE), removed. -/
def headerTry (prev : Option Char) (s : List Char) :
    Option (List Char × Nat) :=
  if atLineStart prev then
    let w := (s.takeWhile pyIsSpace).length
    if 3 < w then none
    else
      match s.drop w with
      | '#' :: _ =>
        let h := min 6 ((s.drop w).takeWhile (fun c => c = '#')).length
        let w2 := ((s.drop (w + h)).takeWhile pyIsSpace).length
        some ([], w + h + w2)
      | _ => none
  else none

/-- `^\s*[-*+]\s+` (MULTILINE), removed. -/
def bulletTry (prev : Option Char) (s : List Char) :
    Option (List Char × Nat) :=
  if atLineStart prev then
    let w := (s.takeWhile pyIsSpace).length
    match s.drop w with
    | c :: rest2 =>
      if c = '-' || c = '*' || c = '+' then
        let w2 := (rest2.takeWhile pyIsSpace).length
        if w2 = 0 then none else some ([], w + 1 + w2)
      else none
    | [] => none
  else none

/-- `^\s*>\s?` (MULTILINE), removed. -/
def blockquoteTry (prev : Option Char) (s : List Char) :
    Option (List Char × Nat) :=
  if atLineStart prev then
    let w := (s.takeWhile pyIsSpace).length
    match s.drop w with
    | '>' :: rest2 =>
      match rest2 with
      | d :: _ => if pyIsSpace d then some ([], w + 2) else some ([], w + 1)
      | [] => some ([], w + 1)
    | _ => none
  else none

/-- One branch of `\*\*(.+?)\*\*|__(.+?)__`, replaced by the group. -/
def boldBranch (mark : List Char) (s : List Char) :
    Option (List Char × Nat) :=
  if mark.isPrefixOf s then
    match s.drop 2 with
    | c :: rest =>
      if c = '\n' then none
      else
        match findNoNL mark rest with
        | some j => some ((c :: rest).take (j + 1), 2 + (j + 1) + 2)
        | none => none
    | [] => none
  else none

def boldTry (_ : Option Char) (s : List Char) : Option (List Char × Nat) :=
  match boldBranch ['*', '*'] s with
  | some r => some r
  | none => boldBranch ['_', '_'] s

/-- Earliest closing `*` for the italic pattern: previous character not
`*`, next character not `*`, no newline before it. -/
def findItalicClose (prevc : Char) : List Char → Option Nat
  | [] => none
  | c :: rest =>
    if c = '*' && !(prevc = '*') &&
        (match rest with | [] => true | d :: _ => !(d = '*')) then some 0
    else if c = '\n' then none
    else (findItalicClose c rest).map (· + 1)

/-- `(?<!\*)\*(?!\*)(.+?)(?<!\*)\*(?!\*)|_(.+?)_`, replaced by the
group. -/
def italicTry (prev : Option Char) (s : List Char) :
    Option (List Char × Nat) :=
  let branch1 :=
    match s with
    | '*' :: rest =>
      if prev = some '*' then none
      else
        match rest with
        | c :: rest2 =>
          if c = '*' || c = '\n' then none
          else
            match findItalicClose c rest2 with
            | some j => some (rest.take (1 + j), 1 + (1 + j) + 1)
            | none => none
        | [] => none
    | _ => none
  match branch1 with
  | some r => some r
  | none =>
    match s with
    | '_' :: rest =>
      match rest with
      | c :: rest2 =>
        if c = '\n' then none
        else
          match findNoNL ['_'] rest2 with
          | some j => some (rest.take (1 + j), 1 + (1 + j) + 1)
          | none => none
      | [] => none
    | _ => none

/-- `(?<=\w)\*(?=\s|$)`, removed. -/
def trailingStarTry (prev : Option Char) (s : List Char) :
    Option (List Char × Nat) :=
  match s with
  | '*' :: rest =>
    match prev with
    | some p =>
      if isWordChar p then
        match rest with
        | [] => some ([], 1)
        | d :: _ => if pyIsSpace d then some ([], 1) else none
      else none
    | none => none
  | _ => none

/-- `(\d{1,2})\.` with the greedy two-then-one digit choice; returns the
value and the consumed length (digits plus dot). -/
def parseNumPrefix : List Char → Option (Nat × Nat)
  | d1 :: d2 :: '.' :: _ =>
    if isDigitChar d1 && isDigitChar d2 then
      some ((d1.toNat - 48) * 10 + (d2.toNat - 48), 3)
    else if isDigitChar d1 && d2 = '.' then none
    else none
  | d1 :: '.' :: _ =>
    if isDigitChar d1 then some (d1.toNat - 48, 2) else none
  | _ => none

/-- `(?<!\d)(\d{1,2})\.\s+` finditer: the matched numbers in order. -/
def findNumberedItemsAux : Nat → Option Char → List Char → List Nat
  | 0, _, _ => []
  | _ + 1, _, [] => []
  | fuel + 1, prev, c :: rest =>
    let skip := fun (_ : Unit) =>
      findNumberedItemsAux fuel (some c) rest
    if (match prev with | some p => isDigitChar p | none => false) then
      skip ()
    else
      match parseNumPrefix (c :: rest) with
      | none => skip ()
      | some (v, k) =>
        let w := (((c :: rest).drop k).takeWhile pyIsSpace).length
        if w = 0 then skip ()
        else
          v :: findNumberedItemsAux fuel
            (((c :: rest).take (k + w)).getLast?) ((c :: rest).drop (k + w))

def findNumberedItems (s : List Char) : List Nat :=
  findNumberedItemsAux s.length none s

def chainSucc : List Nat → Bool
  | [] => true
  | [_] => true
  | a :: b :: rest => (b = a + 1) && chainSucc (b :: rest)

/-- `\s+((?:\d{1,2})\.\s+)` replaced by `\n\1`. -/
def numSplitTry (_ : Option Char) (s : List Char) :
    Option (List Char × Nat) :=
  let w := (s.takeWhile pyIsSpace).length
  if w = 0 then none
  else
    match parseNumPrefix (s.drop w) with
    | none => none
    | some (_, k) =>
      let w2 := (((s.drop w).drop k).takeWhile pyIsSpace).length
      if w2 = 0 then none
      else some ('\n' :: (s.drop w).take (k + w2), w + k + w2)

/-- `chat_prompt._split_inline_numbered_list`. -/
def splitInlineNumberedList (text : List Char) : List Char :=
  let ns := findNumberedItems text
  if ns.length < 2 then text
  else if ns.head? ≠ some 1 then text
  else if ¬ chainSucc ns then text
  else runSub numSplitTry text

def isBreakChar (c : Char) : Bool :=
  c = '\n' || c = '\r' || c = Char.ofNat 11 || c = Char.ofNat 12

/-- Fuse `\r\n` into `\n` (Python `splitlines` treats it as one break). -/
def normCRLF : List Char → List Char
  | '\r' :: '\n' :: rest => '\n' :: normCRLF rest
  | c :: rest => c :: normCRLF rest
  | [] => []

/-- Split off the first line: the text before the first break character,
and the remainder after it when a break was found. -/
def splitBreak : List Char → List Char × Option (List Char)
  | [] => ([], none)
  | c :: rest =>
    if isBreakChar c then ([], some rest)
    else (c :: (splitBreak rest).1, (splitBreak rest).2)

def pySplitlinesAux : Nat → List Char → List (List Char)
  | _, [] => []
  | 0, s => [s]
  | fuel + 1, s =>
    match splitBreak s with
    | (l, none) => [l]
    | (l, some rest) => l :: pySplitlinesAux fuel rest

/-- Python `str.splitlines()` (ASCII break characters). -/
def pySplitlines (s : List Char) : List (List Char) :=
  pySplitlinesAux s.length (normCRLF s)

/-- The final line-collapsing loop of `coerce_plain_text_reply`. -/
def collapseLinesAux (previousBlank : Bool) :
    List (List Char) → List (List Char)
  | [] => []
  | line :: rest =>
    if wsCollapse line = [] then
      if previousBlank then collapseLinesAux true rest
      else [] :: collapseLinesAux true rest
    else wsCollapse line :: collapseLinesAux false rest

def joinNL (ls : List (List Char)) : List Char :=
  (List.intersperse ['\n'] ls).flatten

def finalCollapse (s : List Char) : List Char :=
  pyStrip (joinNL (collapseLinesAux false (pySplitlines s)))

/-- `chat_prompt.coerce_plain_text_reply`. -/
def coercePlainTextReply (text : List Char) : List Char :=
  let cleaned := pyStrip text
  if cleaned = [] then []
  else
    let c1 := runSub fenceTry cleaned
    let c2 := runSub linkTry c1
    let c3 := runSub inlineCodeTry c2
    let c4 := runSub headerTry c3
    let c5 := runSub bulletTry c4
    let c6 := runSub blockquoteTry c5
    let c7 := runSub boldTry c6
    let c8 := runSub italicTry c7
    let c9 := runSub trailingStarTry c8
    let c10 := c9.filter (fun c => c ≠ '`')
    let c11 := splitInlineNumberedList c10
    finalCollapse c11

/-- Characters free of any markdown trigger: not a backtick, asterisk,
underscore, hash, greater-than, left bracket, hyphen or plus, and not a
digit. -/
def plainChar (c : Char) : Bool :=
  !(c = '`' || c = '*' || c = '_' || c = '#' || c = '>' || c = '[' ||
    c = '-' || c = '+') && !isDigitChar c

/-- Words joined by single spaces (the shape of `wsCollapse` output). -/
def joinSp (ws : List (List Char)) : List Char :=
  (List.intersperse [' '] ws).flatten

/-- Drop one leading blank line. -/
def dropLB : List (List Char) → List (List Char)
  | [] :: rest => rest
  | M => M

/-- Drop one trailing blank line. -/
def dropTB (M : List (List Char)) : List (List Char) :=
  (dropLB M.reverse).reverse

/-- No two adjacent blank lines. -/
def noConsecBlank (M : List (List Char)) : Prop :=
  List.Chain' (fun a b => ¬(a = [] ∧ b = [])) M

/-! ## `webhook.handle_chat_mention` — the chat path -/

/-- `webhook.CHAT_MAX_REPLY_CHARS`. -/
def CHAT_MAX_REPLY_CHARS : Nat := 2000

/-- `webhook._truncate_reply`: keep short texts, else cut at the limit,
right-strip and append an ellipsis. -/
def truncateReply (text : List Char) : List Char :=
  if text.length ≤ CHAT_MAX_REPLY_CHARS then text
  else
    ((text.take CHAT_MAX_REPLY_CHARS).reverse.dropWhile
      pyIsSpace).reverse ++ ['.', '.', '.']

/-- `chat_prompt.build_chat_messages`: system prompt, the history turns
whose role is user or assistant, then the user prompt. -/
def buildChatMessages (systemPrompt : String) (history : List ChatTurn)
    (prompt : String) : List ChatTurn :=
  ⟨"system", systemPrompt⟩ ::
    (history.filter (fun t => t.role = "user" || t.role = "assistant") ++
      [⟨"user", prompt⟩])

/-- Outcome of one `handle_chat_mention` call: the store afterwards, the
reply delivered by the transport (if any), and whether `append_turn`
ran. -/
structure ChatMentionResult where
  store : ChatStore
  sent : Option (List Char)
  appended : Bool

/-- `webhook.WebhookHandler.handle_chat_mention` (reply generation and
transport send as oracles): read history, generate, optionally coerce to
plain text, substitute the fallback text for an empty reply, truncate,
send, and only after a successful send append the turn. A generation
error or a transport send error leaves the store as `get_history` left
it. -/
def handleChatMention (maxTurns ttl : Nat) (st : ChatStore) (key : String)
    (systemPrompt prompt : String) (forcePlain : Bool)
    (generate : List ChatTurn → Except String (List Char))
    (send : List Char → Except Unit Unit) (now : Nat) : ChatMentionResult :=
  let hs := getHistory ttl st key now
  match generate (buildChatMessages systemPrompt hs.1 prompt) with
  | Except.error _ => { store := hs.2, sent := none, appended := false }
  | Except.ok reply0 =>
    let reply1 := if forcePlain then coercePlainTextReply reply0 else reply0
    let reply2 :=
      if reply1 = [] then
        "I could not generate a usable plain-text reply. Try again.".data
      else reply1
    let normalized := truncateReply reply2
    match send normalized with
    | Except.error _ => { store := hs.2, sent := none, appended := false }
    | Except.ok _ =>
      { store := appendTurn maxTurns ttl hs.2 key prompt
          (String.mk normalized) now,
        sent := some normalized, appended := true }

/-- A stand-in ambiguous-branch continuation used to exercise
`resolveFollowupPrompt` at concrete inputs. -/
def followupStubBranch (l : List Char) : FollowupResolutionDecision × Bool :=
  ({ resolvedPrompt := l, needsClarification := true,
     clarificationText := none, reason := "k", usedContext := false,
     confidence := 0, subjectHint := none }, true)

/-! ## Supporting lemmas for the dedupe cache -/

theorem dedupePurge_live (s : DedupeState) (now : Nat) (key : String) (e : Nat)
    (hk : s key = some e) (hlt : now < e) :
    dedupePurge s now key = some e := by
  simp [dedupePurge, hk, Nat.not_le.mpr hlt]

theorem markOnce_live (s : DedupeState) (key : String) (now ttl e : Nat)
    (hk : s key = some e) (hlt : now < e) :
    (markOnce s key now ttl).1 = false ∧
    (markOnce s key now ttl).2 key = some e := by
  have hp : dedupePurge s now key = some e := dedupePurge_live s now key e hk hlt
  have hne : e ≠ 0 := by omega
  simp [markOnce, hp, hne, hlt]

theorem markSeq_live (key : String) (ttl e : Nat) (ts : List Nat) :
    ∀ s : DedupeState, s key = some e → (∀ t ∈ ts, t < e) →
    (markSeq s key ttl ts).1 = List.replicate ts.length false ∧
    (markSeq s key ttl ts).2 key = some e := by
  induction ts with
  | nil => intro s hk _; simp [markSeq, hk]
  | cons t ts ih =>
    intro s hk hts
    have hlt : t < e := hts t (List.mem_cons_self t ts)
    have h1 := markOnce_live s key t ttl e hk hlt
    have h2 := ih (markOnce s key t ttl).2 h1.2
      (fun u hu => hts u (List.mem_cons_of_mem t hu))
    simp [markSeq, h1.1, h2.1, h2.2, List.replicate_succ]

theorem markOnce_absent (s : DedupeState) (key : String) (now ttl : Nat)
    (h : dedupePurge s now key = none) :
    (markOnce s key now ttl).1 = true ∧
    (markOnce s key now ttl).2 key = some (now + ttl) := by
  simp [markOnce, h]

theorem markOnce_expired (s : DedupeState) (key : String) (now ttl e : Nat)
    (hk : s key = some e) (hle : e ≤ now) :
    (markOnce s key now ttl).1 = true ∧
    (markOnce s key now ttl).2 key = some (now + ttl) := by
  have hp : dedupePurge s now key = none := by
    simp [dedupePurge, hk, hle]
  exact markOnce_absent s key now ttl hp

/-! ## Supporting lemmas for the chat context store -/

theorem chatPurge_some (st : ChatStore) (now : Nat) (k : String)
    (c : Conversation) (h : chatPurge st now k = some c) : st k = some c := by
  unfold chatPurge at h
  cases hk : st k with
  | none => rw [hk] at h; exact absurd h (by simp)
  | some c0 =>
    rw [hk] at h
    by_cases he : c0.expiresAt ≤ now
    · simp [he] at h
    · simp [he] at h; rw [h]

theorem appendTurn_bounded (m ttl : Nat) (hm : 1 ≤ m) (st : ChatStore)
    (hb : turnsBounded m st) (key u a : String) (now : Nat) :
    turnsBounded m (appendTurn m ttl st key u a now) := by
  intro k c hk
  unfold appendTurn at hk
  by_cases hkey : k = key
  · simp only [hkey, if_pos rfl] at hk
    have hmax : max 1 m = m := Nat.max_eq_right hm
    set c0 :=
      match chatPurge st now key with
      | some c => c
      | none => { turns := [], expiresAt := now + max 1 ttl } with hc0
    set turns1 :=
      c0.turns ++ [ChatTurn.mk "user" u, ChatTurn.mk "assistant" a] with ht1
    by_cases hlen : max 1 m * 2 < turns1.length
    · simp only [← hc0, ← ht1, if_pos hlen] at hk
      have := congrArg Conversation.turns (Option.some.inj hk)
      simp at this
      rw [← this, List.length_drop]
      omega
    · simp only [← hc0, ← ht1, if_neg hlen] at hk
      have := congrArg Conversation.turns (Option.some.inj hk)
      simp at this
      rw [← this]
      omega
  · simp only [if_neg hkey] at hk
    exact hb k c (chatPurge_some st now k c hk)

theorem applyAppends_bounded (m ttl : Nat) (hm : 1 ≤ m)
    (ops : List (String × String × String × Nat)) :
    ∀ st : ChatStore, turnsBounded m st →
      turnsBounded m (applyAppends m ttl st ops) := by
  induction ops with
  | nil => intro st hb; exact hb
  | cons op ops ih =>
    intro st hb
    exact ih _ (appendTurn_bounded m ttl hm st hb op.1 op.2.1 op.2.2.1 op.2.2.2)

/-! ## Claim theorems -/

/-- C3: for every key, in any sequence of `mark_once` calls within one TTL
window, `mark_once` returns true on exactly the first call (key absent or
expired at time `t0`) and false on every later call of that window; after
the entry's expiry (`t2 ≥ t0 + ttl`) a subsequent `mark_once` returns true
again and re-records expiry `t2 + ttl`. -/
theorem dedupe_mark_once_ttl_window
    (s : DedupeState) (key : String) (ttl t0 t2 : Nat) (ts : List Nat)
    (h0 : dedupePurge s t0 key = none)
    (hts : ∀ t ∈ ts, t0 ≤ t ∧ t < t0 + ttl)
    (h2 : t0 + ttl ≤ t2) :
    (markOnce s key t0 ttl).1 = true ∧
    (markOnce s key t0 ttl).2 key = some (t0 + ttl) ∧
    (markSeq (markOnce s key t0 ttl).2 key ttl ts).1 =
      List.replicate ts.length false ∧
    (markOnce (markSeq (markOnce s key t0 ttl).2 key ttl ts).2 key t2 ttl).1 =
      true ∧
    (markOnce (markSeq (markOnce s key t0 ttl).2 key ttl ts).2 key t2 ttl).2 key =
      some (t2 + ttl) := by
  have h1 := markOnce_absent s key t0 ttl h0
  have hseq := markSeq_live key ttl (t0 + ttl) ts (markOnce s key t0 ttl).2 h1.2
    (fun t ht => (hts t ht).2)
  have h3 := markOnce_expired (markSeq (markOnce s key t0 ttl).2 key ttl ts).2
    key t2 ttl (t0 + ttl) hseq.2 h2
  exact ⟨h1.1, h1.2, hseq.1, h3.1, h3.2⟩

/-- Witness for C3 at a concrete instance: fresh cache, ttl 10, first call
at time 0, repeats at times 3 and 5, expiry re-hit at time 10. -/
theorem dedupe_mark_once_ttl_window_witness :
    (markOnce (fun _ => none) "k" 0 10).1 = true ∧
    (markOnce (fun _ => none) "k" 0 10).2 "k" = some 10 ∧
    (markSeq (markOnce (fun _ => none) "k" 0 10).2 "k" 10 [3, 5]).1 =
      List.replicate 2 false ∧
    (markOnce (markSeq (markOnce (fun _ => none) "k" 0 10).2 "k" 10 [3, 5]).2
      "k" 10 10).1 = true ∧
    (markOnce (markSeq (markOnce (fun _ => none) "k" 0 10).2 "k" 10 [3, 5]).2
      "k" 10 10).2 "k" = some 20 :=
  dedupe_mark_once_ttl_window (fun _ => none) "k" 10 0 10 [3, 5]
    (by rfl) (by decide) (by decide)

/-- C7: for every conversation and every sequence of `append_turn` calls
(starting from the empty store), the stored history length never exceeds
`2 × max_turns` (for a configured `max_turns ≥ 1`), and a `get_history`
performed at or after the conversation's expiry deadline returns the empty
sequence. -/
theorem chat_context_bound_and_expiry (maxTurns ttl : Nat) (hm : 1 ≤ maxTurns)
    (ops : List (String × String × String × Nat)) :
    turnsBounded maxTurns (applyAppends maxTurns ttl emptyChatStore ops) ∧
    (∀ (st : ChatStore) (key : String) (now : Nat),
      (∀ c, st key = some c → c.expiresAt ≤ now) →
      (getHistory ttl st key now).1 = []) := by
  constructor
  · exact applyAppends_bounded maxTurns ttl hm ops emptyChatStore
      (fun k c hk => absurd hk (by simp [emptyChatStore]))
  · intro st key now hexp
    have hp : chatPurge st now key = none := by
      unfold chatPurge
      cases hk : st key with
      | none => rfl
      | some c => simp [hexp c hk]
    simp [getHistory, hp]

/-- Witness for C7 at a concrete instance: `max_turns = 1`, four appends to
one conversation, expiry read at the deadline. -/
theorem chat_context_bound_and_expiry_witness :
    turnsBounded 1 (applyAppends 1 5 emptyChatStore
      [("g", "u1", "a1", 0), ("g", "u2", "a2", 1),
       ("g", "u3", "a3", 2), ("d", "u4", "a4", 3)]) ∧
    (∀ (st : ChatStore) (key : String) (now : Nat),
      (∀ c, st key = some c → c.expiresAt ≤ now) →
      (getHistory 5 st key now).1 = []) :=
  chat_context_bound_and_expiry 1 5 (by decide)
    [("g", "u1", "a1", 0), ("g", "u2", "a2", 1),
     ("g", "u3", "a3", 2), ("d", "u4", "a4", 3)]

/-- C2 counterexample: a `/source` command leaves a pending jmail selection
in place, so the router does not clear all three pending slots. -/
theorem slash_source_keeps_jmail_pending :
    (slashCommandPendingClears SlashCommand.source
      { followup := some ⟨"p", "t", "r", 0, 0⟩,
        video := some ⟨"vq", []⟩,
        jmail := some ⟨"jq", []⟩ }).jmail = some ⟨"jq", []⟩ ∧
    (slashCommandPendingClears SlashCommand.source
      { followup := some ⟨"p", "t", "r", 0, 0⟩,
        video := some ⟨"vq", []⟩,
        jmail := some ⟨"jq", []⟩ }).jmail ≠ none :=
  ⟨rfl, by simp [slashCommandPendingClears, clearPendingVideoSelection,
    clearPendingFollowup]⟩

/-- C2 (amended): before dispatching `/source`, a search-family command or
`/imagine`, the router clears pending-followup and pending-video-selection
but leaves pending-jmail-selection untouched; `/weather` and `/forecast`
clear no pending slot. -/
theorem slash_command_pending_clears_behavior (s : PendingSlots) (m : String) :
    slashCommandPendingClears SlashCommand.source s =
      { followup := none, video := none, jmail := s.jmail } ∧
    slashCommandPendingClears (SlashCommand.searchFamily m) s =
      { followup := none, video := none, jmail := s.jmail } ∧
    slashCommandPendingClears SlashCommand.imagine s =
      { followup := none, video := none, jmail := s.jmail } ∧
    slashCommandPendingClears SlashCommand.weather s = s ∧
    slashCommandPendingClears SlashCommand.forecast s = s :=
  ⟨rfl, rfl, rfl, rfl, rfl⟩

/-- C8: with `N ≥ 1` stored results, selection `N` succeeds (video) or is
passed to the summary step (jmail); selection `N + 1` raises the bounded
range message "Please choose a number between 1 and N."; and
`parse_numeric_selection` only ever yields a positive value from a bare
decimal-digit text, yielding nothing for "0". -/
theorem selection_bounds_and_parse
    (fetch : String → Option (List Nat × String))
    (summarize : PendingJmailSelectionState → SearchResult → Except String String)
    (p : PendingVideoSelectionState) (q : PendingJmailSelectionState)
    (hp : p.results ≠ []) (hq : q.results ≠ []) :
    (∃ out, resolveVideoSelection fetch (some p) p.results.length = .ok out) ∧
    resolveVideoSelection fetch (some p) (p.results.length + 1) =
      .error (numberBetweenMessage p.results.length) ∧
    resolveJmailSelection summarize (some q) q.results.length =
      summarize q (q.results.getD (q.results.length - 1) defaultSearchResult) ∧
    resolveJmailSelection summarize (some q) (q.results.length + 1) =
      .error (numberBetweenMessage q.results.length) ∧
    (∀ (t : List Char) (n : Nat), parseNumericSelection t = some n →
      1 ≤ n ∧ pyStrip t ≠ [] ∧ (pyStrip t).all isDigitChar) ∧
    parseNumericSelection "0".data = none := by
  have hplen : 0 < p.results.length := List.length_pos.mpr hp
  have hqlen : 0 < q.results.length := List.length_pos.mpr hq
  refine ⟨?_, ?_, ?_, ?_, ?_, by decide⟩
  · simp only [resolveVideoSelection]
    rw [if_neg hp, if_neg (by omega :
      ¬(p.results.length < 1 ∨ p.results.length < p.results.length))]
    by_cases hthumb :
        pyStrip ((p.results.getD (p.results.length - 1)
          defaultSearchResult).thumbnailUrl.getD "").data = [] ∨
        ¬ (("http://".data.isPrefixOf
            (pyStrip ((p.results.getD (p.results.length - 1)
              defaultSearchResult).thumbnailUrl.getD "").data)) ∨
           ("https://".data.isPrefixOf
            (pyStrip ((p.results.getD (p.results.length - 1)
              defaultSearchResult).thumbnailUrl.getD "").data)))
    · rw [if_pos hthumb]; exact ⟨_, rfl⟩
    · rw [if_neg hthumb]
      cases fetch (String.mk (pyStrip ((p.results.getD (p.results.length - 1)
          defaultSearchResult).thumbnailUrl.getD "").data)) with
      | none => exact ⟨_, rfl⟩
      | some v => exact ⟨_, rfl⟩
  · simp only [resolveVideoSelection]
    rw [if_neg hp, if_pos (by omega :
      p.results.length + 1 < 1 ∨ p.results.length < p.results.length + 1)]
  · simp only [resolveJmailSelection]
    rw [if_neg hq, if_neg (by omega :
      ¬(q.results.length < 1 ∨ q.results.length < q.results.length))]
  · simp only [resolveJmailSelection]
    rw [if_neg hq, if_pos (by omega :
      q.results.length + 1 < 1 ∨ q.results.length < q.results.length + 1)]
  · intro t n h
    simp only [parseNumericSelection] at h
    by_cases hc : pyStrip t ≠ [] ∧ (pyStrip t).all isDigitChar
    · rw [if_pos hc] at h
      by_cases hz : digitsToNat (pyStrip t) ≤ 0
      · rw [if_pos hz] at h; exact absurd h (by simp)
      · rw [if_neg hz] at h
        have : digitsToNat (pyStrip t) = n := Option.some.inj h
        exact ⟨by omega, hc.1, hc.2⟩
    · rw [if_neg hc] at h; exact absurd h (by simp)

/-- Witness for C8 at a concrete pending state of two videos and one jmail
result. -/
theorem selection_bounds_and_parse_witness :
    (∃ out, resolveVideoSelection (fun _ => none)
      (some ⟨"vq", [defaultSearchResult, defaultSearchResult]⟩) 2 = .ok out) ∧
    resolveVideoSelection (fun _ => none)
      (some ⟨"vq", [defaultSearchResult, defaultSearchResult]⟩) 3 =
      .error (numberBetweenMessage 2) ∧
    resolveJmailSelection (fun _ r => .ok r.title)
      (some ⟨"jq", [defaultSearchResult]⟩) 1 =
      (fun (_ : PendingJmailSelectionState) (r : SearchResult) => Except.ok (ε := String) r.title)
        ⟨"jq", [defaultSearchResult]⟩
        ([defaultSearchResult].getD 0 defaultSearchResult) ∧
    resolveJmailSelection (fun _ r => .ok r.title)
      (some ⟨"jq", [defaultSearchResult]⟩) 2 =
      .error (numberBetweenMessage 1) ∧
    (∀ (t : List Char) (n : Nat), parseNumericSelection t = some n →
      1 ≤ n ∧ pyStrip t ≠ [] ∧ (pyStrip t).all isDigitChar) ∧
    parseNumericSelection "0".data = none :=
  selection_bounds_and_parse (fun _ => none) (fun _ r => .ok r.title)
    ⟨"vq", [defaultSearchResult, defaultSearchResult]⟩
    ⟨"jq", [defaultSearchResult]⟩ (by simp) (by simp)

/-! ## Supporting lemmas for the search backend chain -/

theorem backendLoop_fne_exhausted (mode : String) (maxResults : Nat)
    (outcomes : String → Except DDGSExc (List RawResult)) (bs : List String) :
    ∀ (lastExc : Option DDGSExc) (agg : List SearchResult),
    (∀ b ∈ bs, ∀ raw, outcomes b = .ok raw →
      normalizeSearchResults mode raw = []) →
    backendLoop mode maxResults .firstNonEmpty outcomes bs lastExc agg =
      (match lastExcAmong outcomes lastExc bs with
       | some e => .error e
       | none => .ok []) := by
  induction bs with
  | nil => intro lastExc agg _; rfl
  | cons b rest ih =>
    intro lastExc agg h
    cases hob : outcomes b with
    | error e =>
      simp only [backendLoop, hob, lastExcAmong]
      exact ih (some e) agg (fun b2 hb2 => h b2 (List.mem_cons_of_mem b hb2))
    | ok raw =>
      have hn : normalizeSearchResults mode raw = [] :=
        h b (List.mem_cons_self b rest) raw hob
      simp only [backendLoop, hob, hn, lastExcAmong, ne_eq, not_true_eq_false,
        if_false]
      exact ih lastExc agg (fun b2 hb2 => h b2 (List.mem_cons_of_mem b hb2))

/-! ## Claim theorems for the search backend chain -/

/-- C1 counterexample: with one provider that throws a rate-limit
exception, `first_non_empty` exhaustion re-raises the provider exception
and the user message is the rate-limit one, not "No search results
found." -/
theorem first_non_empty_all_throw_not_no_results :
    searchClientSearch "q".data "search" ["duckduckgo"] 5
      MergeStrategy.firstNonEmpty (fun _ => .error (DDGSExc.ratelimit "rate")) =
      .error "Search service is rate-limited. Try again soon." ∧
    searchClientSearch "q".data "search" ["duckduckgo"] 5
      MergeStrategy.firstNonEmpty (fun _ => .error (DDGSExc.ratelimit "rate")) ≠
      .error "No search results found." := by
  have h1 : searchClientSearch "q".data "search" ["duckduckgo"] 5
      MergeStrategy.firstNonEmpty (fun _ => .error (DDGSExc.ratelimit "rate")) =
      .error "Search service is rate-limited. Try again soon." := rfl
  refine ⟨h1, ?_⟩
  rw [h1]
  intro hcontra
  exact absurd (Except.error.inj hcontra) (by decide)

/-- C1 (amended): under `first_non_empty`, if every deduped backend yields
an empty normalized list or throws, then when no backend threw the raised
`SearchError` carries "No search results found.", and when at least one
backend threw the raised `SearchError` carries the message derived from
the last provider exception. -/
theorem first_non_empty_exhausted_error
    (query : List Char) (mode : String) (backends : List String)
    (maxResults : Nat) (outcomes : String → Except DDGSExc (List RawResult))
    (hq : wsCollapse query ≠ [])
    (hempty : ∀ b ∈ dedupeBackends backends, ∀ raw, outcomes b = .ok raw →
      normalizeSearchResults mode raw = []) :
    (lastExcAmong outcomes none (dedupeBackends backends) = none →
      searchClientSearch query mode backends maxResults .firstNonEmpty
        outcomes = .error "No search results found.") ∧
    (∀ e, lastExcAmong outcomes none (dedupeBackends backends) = some e →
      searchClientSearch query mode backends maxResults .firstNonEmpty
        outcomes = .error (searchErrorMessageOfExc e)) := by
  have hloop := backendLoop_fne_exhausted mode maxResults outcomes
    (dedupeBackends backends) none [] hempty
  unfold searchClientSearch searchModeWithBackends
  rw [if_neg hq, hloop]
  constructor
  · intro hnone; rw [hnone]
  · intro e he; rw [he]

/-- Witness for C1's amended theorem: two backends, the first empty, the
second throwing a timeout; the surfaced message is the timeout one. -/
theorem first_non_empty_exhausted_error_witness :
    (lastExcAmong
        (fun b => if b = "b1" then Except.ok ([] : List RawResult)
                  else .error (DDGSExc.timeout "t"))
        none (dedupeBackends ["b1", "b2"]) = none →
      searchClientSearch "q".data "search" ["b1", "b2"] 5 .firstNonEmpty
        (fun b => if b = "b1" then Except.ok ([] : List RawResult)
                  else .error (DDGSExc.timeout "t")) =
        .error "No search results found.") ∧
    (∀ e, lastExcAmong
        (fun b => if b = "b1" then Except.ok ([] : List RawResult)
                  else .error (DDGSExc.timeout "t"))
        none (dedupeBackends ["b1", "b2"]) = some e →
      searchClientSearch "q".data "search" ["b1", "b2"] 5 .firstNonEmpty
        (fun b => if b = "b1" then Except.ok ([] : List RawResult)
                  else .error (DDGSExc.timeout "t")) =
        .error (searchErrorMessageOfExc e)) := by
  refine first_non_empty_exhausted_error "q".data "search" ["b1", "b2"] 5
    (fun b => if b = "b1" then Except.ok ([] : List RawResult)
              else .error (DDGSExc.timeout "t")) (by decide) ?_
  intro b hb raw hraw
  have hb2 : b = "b1" ∨ b = "b2" := by
    have : dedupeBackends ["b1", "b2"] = ["b1", "b2"] := rfl
    rw [this] at hb
    simpa using hb
  rcases hb2 with h | h
  · subst h
    simp at hraw
    subst hraw
    rfl
  · subst h
    simp at hraw

/-! ## Supporting lemmas for the Signal candidate loop -/

theorem groupSendLoop_all400 (attempts : List (String × PostOutcome)) :
    ∀ (p : String × PostOutcome), attempts.getLast? = some p →
    (∀ q ∈ attempts, ∃ d, q.2 = PostOutcome.failStatus 400 d) →
    ∀ acc, ∃ e, postErrorOf p.1 p.2 = some e ∧ e.statusCode = some 400 ∧
      groupSendLoop attempts acc =
        (LoopResult.exhausted (some e), attempts.map Prod.fst) := by
  induction attempts with
  | nil => intro p hp; exact absurd hp (by simp)
  | cons a rest ih =>
    obtain ⟨r, o⟩ := a
    intro p hp h400 acc
    obtain ⟨d, hd⟩ := h400 (r, o) (List.mem_cons_self _ _)
    simp only at hd
    subst hd
    cases rest with
    | nil =>
      have hpa : (r, PostOutcome.failStatus 400 d) = p := by simpa using hp
      subst hpa
      exact ⟨_, rfl, rfl, rfl⟩
    | cons b rest2 =>
      have hp2 : (b :: rest2).getLast? = some p := by
        rwa [List.getLast?_cons_cons] at hp
      obtain ⟨e, he1, he2, he3⟩ := ih p hp2
        (fun q hq => h400 q (List.mem_cons_of_mem _ hq))
        (some { message := "Signal send failed with status 400 (recipient=" ++
                  r ++ "): " ++ d,
                statusCode := some 400, recipient := some r })
      refine ⟨e, he1, he2, ?_⟩
      have hstep : groupSendLoop
          ((r, PostOutcome.failStatus 400 d) :: b :: rest2) acc =
          ((groupSendLoop (b :: rest2)
              (some { message := "Signal send failed with status 400 (recipient=" ++
                        r ++ "): " ++ d,
                      statusCode := some 400, recipient := some r })).1,
           r :: (groupSendLoop (b :: rest2)
              (some { message := "Signal send failed with status 400 (recipient=" ++
                        r ++ "): " ++ d,
                      statusCode := some 400, recipient := some r })).2) := rfl
      rw [hstep, he3]
      rfl

theorem groupSendLoop_advance (r : String) (o : PostOutcome)
    (rest : List (String × PostOutcome)) :
    ∀ (pre : List (String × PostOutcome)) (acc : Option SignalSendError),
    (∀ q ∈ pre, ∃ d, q.2 = PostOutcome.failStatus 400 d) →
    (postErrorOf r o = none →
      groupSendLoop (pre ++ (r, o) :: rest) acc =
        (.sent, pre.map Prod.fst ++ [r])) ∧
    (∀ e, postErrorOf r o = some e → ¬ e.statusCode = some 400 →
      groupSendLoop (pre ++ (r, o) :: rest) acc =
        (.raised e, pre.map Prod.fst ++ [r])) := by
  intro pre
  induction pre with
  | nil =>
    intro acc _
    constructor
    · intro h
      simp [groupSendLoop, h]
    · intro e he hne
      simp [groupSendLoop, he, hne]
  | cons a pre2 ih =>
    obtain ⟨r2, o2⟩ := a
    intro acc hpre
    obtain ⟨d, hd⟩ := hpre (r2, o2) (List.mem_cons_self _ _)
    simp only at hd
    subst hd
    have ihh := ih
      (some { message := "Signal send failed with status 400 (recipient=" ++
                r2 ++ "): " ++ d,
              statusCode := some 400, recipient := some r2 })
      (fun q hq => hpre q (List.mem_cons_of_mem _ hq))
    have hstep : groupSendLoop
        (((r2, PostOutcome.failStatus 400 d) :: pre2) ++ (r, o) :: rest) acc =
        ((groupSendLoop (pre2 ++ (r, o) :: rest)
            (some { message := "Signal send failed with status 400 (recipient=" ++
                      r2 ++ "): " ++ d,
                    statusCode := some 400, recipient := some r2 })).1,
         r2 :: (groupSendLoop (pre2 ++ (r, o) :: rest)
            (some { message := "Signal send failed with status 400 (recipient=" ++
                      r2 ++ "): " ++ d,
                    statusCode := some 400, recipient := some r2 })).2) := rfl
    constructor
    · intro h
      rw [hstep, ihh.1 h]
      rfl
    · intro e he hne
      rw [hstep, ihh.2 e he hne]
      rfl

/-- C5: the Signal client tries resolved candidates in order: after any
prefix of candidates that all fail with HTTP 400, a success stops the
loop; any other error aborts the loop and is raised as-is; if every
candidate fails with 400 and a (non-empty) fallback recipient is given,
exactly one additional DM attempt to the fallback is made — on its
success the send succeeds, and on its failure the raised error is the
last group error annotated with the resolver metadata. -/
theorem signal_group_send_candidate_loop
    (pre rest attempts : List (String × PostOutcome)) (r : String)
    (o : PostOutcome) (p : String × PostOutcome) (cacheRefreshed : Bool)
    (fb : String) (fo : PostOutcome)
    (hpre : ∀ q ∈ pre, ∃ d, q.2 = PostOutcome.failStatus 400 d)
    (hall : ∀ q ∈ attempts, ∃ d, q.2 = PostOutcome.failStatus 400 d)
    (hlast : attempts.getLast? = some p)
    (hfb : fb ≠ "") :
    (postErrorOf r o = none →
      postWithRetryGroup (pre ++ (r, o) :: rest) cacheRefreshed
        (some (fb, fo)) = (.ok (), pre.map Prod.fst ++ [r])) ∧
    (∀ e, postErrorOf r o = some e → ¬ e.statusCode = some 400 →
      postWithRetryGroup (pre ++ (r, o) :: rest) cacheRefreshed
        (some (fb, fo)) = (.error e, pre.map Prod.fst ++ [r])) ∧
    (∀ e, postErrorOf p.1 p.2 = some e →
      (postErrorOf fb fo = none →
        postWithRetryGroup attempts cacheRefreshed (some (fb, fo)) =
          (.ok (), attempts.map Prod.fst ++ [fb])) ∧
      (∀ e2, postErrorOf fb fo = some e2 →
        postWithRetryGroup attempts cacheRefreshed (some (fb, fo)) =
          (.error (derivedGroupError e cacheRefreshed attempts.length),
           attempts.map Prod.fst ++ [fb]))) := by
  have hadv := groupSendLoop_advance r o rest pre none hpre
  obtain ⟨le, hle1, hle2, hle3⟩ :=
    groupSendLoop_all400 attempts p hlast hall none
  refine ⟨?_, ?_, ?_⟩
  · intro h
    unfold postWithRetryGroup
    rw [hadv.1 h]
  · intro e he hne
    unfold postWithRetryGroup
    rw [hadv.2 e he hne]
  · intro e he
    have hee : e = le := by rw [hle1] at he; exact (Option.some.inj he).symm
    subst hee
    constructor
    · intro hok
      simp [postWithRetryGroup, hle3, hok, hfb, hle2]
    · intro e2 he2
      simp [postWithRetryGroup, hle3, he2, hfb, hle2]

/-- Witness for C5 at a concrete instance: candidate "c1" fails with 400,
"c2" succeeds; the same single-candidate 400 trace with a fallback
recipient. -/
theorem signal_group_send_candidate_loop_witness :
    (postErrorOf "c2" PostOutcome.success = none →
      postWithRetryGroup
        ([("c1", PostOutcome.failStatus 400 "bad")] ++
          ("c2", PostOutcome.success) :: []) true
        (some ("+1555", PostOutcome.failStatus 400 "nope")) =
        (.ok (), [("c1", PostOutcome.failStatus 400 "bad")].map Prod.fst ++
          ["c2"])) ∧
    (∀ e, postErrorOf "c2" PostOutcome.success = some e →
      ¬ e.statusCode = some 400 →
      postWithRetryGroup
        ([("c1", PostOutcome.failStatus 400 "bad")] ++
          ("c2", PostOutcome.success) :: []) true
        (some ("+1555", PostOutcome.failStatus 400 "nope")) =
        (.error e, [("c1", PostOutcome.failStatus 400 "bad")].map Prod.fst ++
          ["c2"])) ∧
    (∀ e, postErrorOf ("c1", PostOutcome.failStatus 400 "bad").1
        ("c1", PostOutcome.failStatus 400 "bad").2 = some e →
      (postErrorOf "+1555" (PostOutcome.failStatus 400 "nope") = none →
        postWithRetryGroup [("c1", PostOutcome.failStatus 400 "bad")] true
          (some ("+1555", PostOutcome.failStatus 400 "nope")) =
          (.ok (), [("c1", PostOutcome.failStatus 400 "bad")].map Prod.fst ++
            ["+1555"])) ∧
      (∀ e2, postErrorOf "+1555" (PostOutcome.failStatus 400 "nope") = some e2 →
        postWithRetryGroup [("c1", PostOutcome.failStatus 400 "bad")] true
          (some ("+1555", PostOutcome.failStatus 400 "nope")) =
          (.error (derivedGroupError e true
            [("c1", PostOutcome.failStatus 400 "bad")].length),
           [("c1", PostOutcome.failStatus 400 "bad")].map Prod.fst ++
            ["+1555"]))) :=
  signal_group_send_candidate_loop
    [("c1", PostOutcome.failStatus 400 "bad")] []
    [("c1", PostOutcome.failStatus 400 "bad")] "c2" PostOutcome.success
    ("c1", PostOutcome.failStatus 400 "bad") true "+1555"
    (PostOutcome.failStatus 400 "nope")
    (by intro q hq; rw [List.mem_singleton] at hq; subst hq; exact ⟨"bad", rfl⟩)
    (by intro q hq; rw [List.mem_singleton] at hq; subst hq; exact ⟨"bad", rfl⟩)
    (by rfl) (by decide)

/-! ## Supporting lemmas for the alias codec -/

theorem b64DecodeChar_b64Char : ∀ i < 64, b64DecodeChar (b64Char i) = some i := by
  decide

theorem b64Char_ne_pad : ∀ i < 64, ¬ b64Char i = '=' := by decide

theorem b64Char_mem_alphabet : ∀ i < 64, b64Char i ∈ b64Alphabet := by decide

theorem b64Alphabet_no_space : ∀ c ∈ b64Alphabet, pyIsSpace c = false := by
  decide

theorem b64Alphabet_ne_dash :
    ∀ c ∈ b64Alphabet, ¬ c = '-' ∧ ¬ c = '_' := by decide

theorem utf8EncodeChar_lt_256 (n : Nat) (hn : n < 0x110000) :
    ∀ b ∈ utf8EncodeChar n, b < 256 := by
  intro b hb
  unfold utf8EncodeChar at hb
  by_cases h1 : n < 0x80
  · simp [h1] at hb; omega
  · by_cases h2 : n < 0x800
    · simp [h1, h2] at hb; rcases hb with hb | hb <;> omega
    · by_cases h3 : n < 0x10000
      · simp [h1, h2, h3] at hb; rcases hb with hb | hb | hb <;> omega
      · simp [h1, h2, h3] at hb; rcases hb with hb | hb | hb | hb <;> omega

theorem char_toNat_lt (c : Char) : c.toNat < 0x110000 := by
  rcases c.valid with h | ⟨_, h2⟩ <;> simp [Char.toNat] <;> omega

theorem utf8Encode_lt_256 (s : List Char) : ∀ b ∈ utf8Encode s, b < 256 := by
  intro b hb
  unfold utf8Encode at hb
  rw [List.mem_flatten] at hb
  obtain ⟨l, hl, hbl⟩ := hb
  rw [List.mem_map] at hl
  obtain ⟨c, _, rfl⟩ := hl
  exact utf8EncodeChar_lt_256 c.toNat (char_toNat_lt c) b hbl

theorem utf8EncodeChar_ne_nil (n : Nat) : utf8EncodeChar n ≠ [] := by
  unfold utf8EncodeChar
  by_cases h1 : n < 0x80 <;> by_cases h2 : n < 0x800 <;>
    by_cases h3 : n < 0x10000 <;> simp [h1, h2, h3]

theorem utf8Encode_ne_nil (s : List Char) (h : s ≠ []) : utf8Encode s ≠ [] := by
  cases s with
  | nil => exact absurd rfl h
  | cons c s =>
    unfold utf8Encode
    simp only [List.map_cons, List.flatten_cons, ne_eq, List.append_eq_nil]
    intro hcon
    exact utf8EncodeChar_ne_nil c.toNat hcon.1

theorem b64Encode_ne_nil : ∀ bs : List Nat, bs ≠ [] → b64Encode bs ≠ []
  | [], h => absurd rfl h
  | [_], _ => by simp [b64Encode]
  | [_, _], _ => by simp [b64Encode]
  | _ :: _ :: _ :: _, _ => by simp [b64Encode]

theorem b64Encode_length_mod : ∀ bs : List Nat, (b64Encode bs).length % 4 = 0
  | [] => rfl
  | [_] => by simp [b64Encode]
  | [_, _] => by simp [b64Encode]
  | _ :: _ :: _ :: rest => by
    have ih := b64Encode_length_mod rest
    simp only [b64Encode, List.length_cons]
    omega

theorem b64Encode_mem : ∀ (bs : List Nat), (∀ b ∈ bs, b < 256) →
    ∀ c ∈ b64Encode bs, c ∈ b64Alphabet ∨ c = '='
  | [], _, c, hc => absurd hc (by simp [b64Encode])
  | [a], h, c, hc => by
    have ha : a < 256 := h a (by simp)
    simp only [b64Encode, List.mem_cons, List.not_mem_nil, or_false] at hc
    rcases hc with hc | hc | hc | hc
    · exact Or.inl (hc ▸ b64Char_mem_alphabet _ (by omega))
    · exact Or.inl (hc ▸ b64Char_mem_alphabet _ (by omega))
    · exact Or.inr hc
    · exact Or.inr hc
  | [a, b], h, c, hc => by
    have ha : a < 256 := h a (by simp)
    have hb : b < 256 := h b (by simp)
    simp only [b64Encode, List.mem_cons, List.not_mem_nil, or_false] at hc
    rcases hc with hc | hc | hc | hc
    · exact Or.inl (hc ▸ b64Char_mem_alphabet _ (by omega))
    · exact Or.inl (hc ▸ b64Char_mem_alphabet _ (by omega))
    · exact Or.inl (hc ▸ b64Char_mem_alphabet _ (by omega))
    · exact Or.inr hc
  | a :: b :: d :: rest, h, c, hc => by
    have ha : a < 256 := h a (by simp)
    have hb : b < 256 := h b (by simp)
    have hd : d < 256 := h d (by simp)
    simp only [b64Encode, List.mem_cons] at hc
    rcases hc with hc | hc | hc | hc | hc
    · exact Or.inl (hc ▸ b64Char_mem_alphabet _ (by omega))
    · exact Or.inl (hc ▸ b64Char_mem_alphabet _ (by omega))
    · exact Or.inl (hc ▸ b64Char_mem_alphabet _ (by omega))
    · exact Or.inl (hc ▸ b64Char_mem_alphabet _ (by omega))
    · exact b64Encode_mem rest
        (fun x hx => h x (by simp [hx])) c hc

theorem b64_roundtrip : ∀ bs : List Nat, (∀ b ∈ bs, b < 256) →
    b64Decode (b64Encode bs) = some bs
  | [], _ => rfl
  | [a], h => by
    have ha : a < 256 := h a (by simp)
    show b64Decode [b64Char (a / 4), b64Char (a % 4 * 16), '=', '='] = some [a]
    simp only [b64Decode]
    rw [b64DecodeChar_b64Char _ (by omega), b64DecodeChar_b64Char _ (by omega)]
    simp only [Option.some_bind]
    rw [if_pos (by simp)]
    have h1 : a / 4 * 4 + a % 4 * 16 / 16 = a := by omega
    rw [h1]
  | [a, b], h => by
    have ha : a < 256 := h a (by simp)
    have hb : b < 256 := h b (by simp)
    show b64Decode [b64Char (a / 4), b64Char (a % 4 * 16 + b / 16),
        b64Char (b % 16 * 4), '='] = some [a, b]
    simp only [b64Decode]
    rw [b64DecodeChar_b64Char _ (by omega), b64DecodeChar_b64Char _ (by omega)]
    simp only [Option.some_bind]
    rw [if_neg (fun hcon => b64Char_ne_pad (b % 16 * 4) (by omega) hcon.1)]
    rw [if_pos (by simp)]
    rw [b64DecodeChar_b64Char _ (by omega)]
    simp only [Option.map_some']
    simp only [Option.some.injEq, List.cons.injEq, and_true]
    omega
  | a :: b :: d :: rest, h => by
    have ha : a < 256 := h a (by simp)
    have hb : b < 256 := h b (by simp)
    have hd : d < 256 := h d (by simp)
    have ih := b64_roundtrip rest (fun x hx => h x (by simp [hx]))
    show b64Decode (b64Char (a / 4) :: b64Char (a % 4 * 16 + b / 16) ::
        b64Char (b % 16 * 4 + d / 64) :: b64Char (d % 64) ::
        b64Encode rest) = some (a :: b :: d :: rest)
    simp only [b64Decode]
    rw [b64DecodeChar_b64Char _ (by omega), b64DecodeChar_b64Char _ (by omega)]
    simp only [Option.some_bind]
    rw [if_neg (fun hcon => b64Char_ne_pad (b % 16 * 4 + d / 64) (by omega) hcon.1)]
    rw [if_neg (fun hcon => b64Char_ne_pad (d % 64) (by omega) hcon.1)]
    rw [b64DecodeChar_b64Char _ (by omega), b64DecodeChar_b64Char _ (by omega)]
    simp only [Option.some_bind]
    rw [ih]
    simp only [Option.map_some']
    simp only [Option.some.injEq, List.cons.injEq, and_true]
    refine ⟨by omega, by omega, by omega⟩

theorem utf8EncodeChar_length_le (n : Nat) :
    1 ≤ (utf8EncodeChar n).length ∧ (utf8EncodeChar n).length ≤ 4 := by
  unfold utf8EncodeChar
  by_cases h1 : n < 0x80 <;> by_cases h2 : n < 0x800 <;>
    by_cases h3 : n < 0x10000 <;> simp [h1, h2, h3]

theorem utf8DecodeStep_encodeChar (c : Char) (rest : List Nat) :
    utf8DecodeStep (utf8EncodeChar c.toNat ++ rest) = some (c.toNat, rest) := by
  have hv := c.valid
  have hlt := char_toNat_lt c
  rcases Nat.lt_or_ge c.toNat 0x80 with h1 | h1
  · have henc : utf8EncodeChar c.toNat = [c.toNat] := by
      unfold utf8EncodeChar; rw [if_pos h1]
    rw [henc, List.cons_append, List.nil_append]
    simp only [utf8DecodeStep]
    rw [if_pos h1]
  · rcases Nat.lt_or_ge c.toNat 0x800 with h2 | h2
    · have henc : utf8EncodeChar c.toNat =
          [0xC0 + c.toNat / 64, 0x80 + c.toNat % 64] := by
        unfold utf8EncodeChar
        rw [if_neg (by omega), if_pos h2]
      rw [henc, List.cons_append, List.cons_append, List.nil_append]
      simp only [utf8DecodeStep]
      rw [if_neg (by omega), if_neg (by omega), if_pos (by omega),
        if_pos (by omega)]
      have hn : (0xC0 + c.toNat / 64 - 0xC0) * 64 + (0x80 + c.toNat % 64 - 0x80) =
          c.toNat := by omega
      rw [hn]
    · rcases Nat.lt_or_ge c.toNat 0x10000 with h3 | h3
      · have hns : ¬ (0xD800 ≤ c.toNat ∧ c.toNat < 0xE000) := by
          rcases hv with h | ⟨ha, _⟩ <;> simp only [Char.toNat] at * <;> omega
        have henc : utf8EncodeChar c.toNat =
            [0xE0 + c.toNat / 4096, 0x80 + c.toNat / 64 % 64,
             0x80 + c.toNat % 64] := by
          unfold utf8EncodeChar
          rw [if_neg (by omega), if_neg (by omega), if_pos h3]
        rw [henc, List.cons_append, List.cons_append, List.cons_append,
          List.nil_append]
        simp only [utf8DecodeStep]
        rw [if_neg (by omega), if_neg (by omega), if_neg (by omega),
          if_pos (by omega), if_pos (by omega)]
        have hn : (0xE0 + c.toNat / 4096 - 0xE0) * 4096 +
            (0x80 + c.toNat / 64 % 64 - 0x80) * 64 +
            (0x80 + c.toNat % 64 - 0x80) = c.toNat := by omega
        rw [if_neg (by rw [hn]; push_neg; exact ⟨by omega, fun hs => by omega⟩)]
        rw [hn]
      · have henc : utf8EncodeChar c.toNat =
            [0xF0 + c.toNat / 262144, 0x80 + c.toNat / 4096 % 64,
             0x80 + c.toNat / 64 % 64, 0x80 + c.toNat % 64] := by
          unfold utf8EncodeChar
          rw [if_neg (by omega), if_neg (by omega), if_neg (by omega)]
        rw [henc, List.cons_append, List.cons_append, List.cons_append,
          List.cons_append, List.nil_append]
        simp only [utf8DecodeStep]
        rw [if_neg (by omega), if_neg (by omega), if_neg (by omega),
          if_neg (by omega), if_pos (by omega), if_pos (by omega)]
        have hn : (0xF0 + c.toNat / 262144 - 0xF0) * 262144 +
            (0x80 + c.toNat / 4096 % 64 - 0x80) * 4096 +
            (0x80 + c.toNat / 64 % 64 - 0x80) * 64 +
            (0x80 + c.toNat % 64 - 0x80) = c.toNat := by omega
        rw [if_neg (by rw [hn]; omega)]
        rw [hn]

theorem utf8DecodeLoop_encode : ∀ (s : List Char) (fuel : Nat),
    (utf8Encode s).length ≤ fuel →
    utf8DecodeLoop fuel (utf8Encode s) = some s
  | [], fuel, _ => by
    cases fuel <;> simp [utf8DecodeLoop, utf8Encode]
  | c :: s, fuel, hf => by
    have henc : utf8Encode (c :: s) = utf8EncodeChar c.toNat ++ utf8Encode s := by
      simp [utf8Encode]
    have hlen := utf8EncodeChar_length_le c.toNat
    have hne : utf8EncodeChar c.toNat ++ utf8Encode s ≠ [] := by
      intro hcon
      rw [List.append_eq_nil] at hcon
      exact utf8EncodeChar_ne_nil c.toNat hcon.1
    rw [henc] at hf ⊢
    rw [List.length_append] at hf
    cases fuel with
    | zero => omega
    | succ fuel =>
      have hrec := utf8DecodeLoop_encode s fuel (by omega)
      simp only [utf8DecodeLoop]
      rw [if_neg hne, utf8DecodeStep_encodeChar]
      show (utf8DecodeLoop fuel (utf8Encode s)).map
        (fun cs => Char.ofNat c.toNat :: cs) = some (c :: s)
      rw [hrec, Option.map_some', Char.ofNat_toNat]

theorem utf8_roundtrip (s : List Char) : utf8Decode (utf8Encode s) = some s :=
  utf8DecodeLoop_encode s (utf8Encode s).length (Nat.le_refl _)

theorem dropWhile_eq_self_of_none (p : Char → Bool) (l : List Char)
    (h : ∀ c ∈ l, p c = false) : List.dropWhile p l = l := by
  cases l with
  | nil => rfl
  | cons a l =>
    rw [List.dropWhile_cons, h a (List.mem_cons_self a l)]
    simp

theorem pyStrip_eq_self (l : List Char)
    (h : ∀ c ∈ l, pyIsSpace c = false) : pyStrip l = l := by
  unfold pyStrip
  rw [dropWhile_eq_self_of_none _ _ h,
    dropWhile_eq_self_of_none _ _ (fun c hc => h c (List.mem_reverse.mp hc)),
    List.reverse_reverse]

theorem pyReplaceChar_eq_self (a b : Char) (l : List Char)
    (h : ∀ c ∈ l, ¬ c = a) : pyReplaceChar a b l = l := by
  unfold pyReplaceChar
  have hcong : ∀ c ∈ l, (if c = a then b else c) = c :=
    fun c hc => if_neg (h c hc)
  rw [List.map_congr_left hcong]
  exact List.map_id l

/-- C10 counterexample: the internal id " a " (valid UTF-8) does not
round-trip — decoding its encoding strips the surrounding whitespace and
yields "a". -/
theorem group_alias_roundtrip_fails_on_whitespace :
    decodeGroupSuffix (encodeInternalId " a ".data) = some "a".data ∧
    some "a".data ≠ some " a ".data := by
  constructor
  · rfl
  · decide

/-- C10 (amended): `_decode_group_suffix (_encode_internal_id id) = id` for
every internal id that is non-empty and has no leading or trailing
whitespace (equals its own strip); ids violating that come back stripped
(or as `None` when nothing remains). -/
theorem group_alias_roundtrip_stripped (s : List Char) (hne : s ≠ [])
    (hstrip : pyStrip s = s) :
    decodeGroupSuffix (encodeInternalId s) = some s := by
  have hbytes := utf8Encode_lt_256 s
  have hmem := b64Encode_mem (utf8Encode s) hbytes
  have hnospace : ∀ c ∈ encodeInternalId s, pyIsSpace c = false := by
    intro c hc
    rcases hmem c hc with h | h
    · exact b64Alphabet_no_space c h
    · rw [h]; rfl
  have hnodash : ∀ c ∈ encodeInternalId s, ¬ c = '-' := by
    intro c hc
    rcases hmem c hc with h | h
    · exact (b64Alphabet_ne_dash c h).1
    · rw [h]; decide
  have hnound : ∀ c ∈ encodeInternalId s, ¬ c = '_' := by
    intro c hc
    rcases hmem c hc with h | h
    · exact (b64Alphabet_ne_dash c h).2
    · rw [h]; decide
  have hencne : encodeInternalId s ≠ [] :=
    b64Encode_ne_nil (utf8Encode s) (utf8Encode_ne_nil s hne)
  have hlenmod : (encodeInternalId s).length % 4 = 0 :=
    b64Encode_length_mod (utf8Encode s)
  unfold decodeGroupSuffix
  rw [pyStrip_eq_self _ hnospace, pyReplaceChar_eq_self _ _ _ hnodash,
    pyReplaceChar_eq_self _ _ _ hnound]
  rw [if_neg hencne]
  have hpad : (4 - (encodeInternalId s).length % 4) % 4 = 0 := by omega
  rw [hpad]
  simp only [List.replicate_zero, List.append_nil]
  have hfilter : (encodeInternalId s).filter
      (fun c => decide (c ∈ b64Alphabet ∨ c = '=')) = encodeInternalId s :=
    List.filter_eq_self.mpr (fun c hc => decide_eq_true (hmem c hc))
  unfold b64DecodePython
  simp only [hfilter]
  rw [if_pos hlenmod]
  show (match b64Decode (encodeInternalId s) with
    | none => none
    | some bytes =>
      match utf8Decode bytes with
      | none => none
      | some text => if pyStrip text = [] then none else some (pyStrip text)) =
    some s
  have hb64 : b64Decode (encodeInternalId s) = some (utf8Encode s) :=
    b64_roundtrip (utf8Encode s) hbytes
  rw [hb64]
  show (match utf8Decode (utf8Encode s) with
    | none => none
    | some text => if pyStrip text = [] then none else some (pyStrip text)) =
    some s
  rw [utf8_roundtrip s]
  show (if pyStrip s = [] then none else some (pyStrip s)) = some s
  rw [hstrip, if_neg hne]

/-- Witness for C10's amended theorem at the concrete id "abc". -/
theorem group_alias_roundtrip_stripped_witness :
    decodeGroupSuffix (encodeInternalId "abc".data) = some "abc".data :=
  group_alias_roundtrip_stripped "abc".data (by decide) (by decide)

/-! ## Supporting lemmas for follow-up detection -/

theorem isWordChar_of_space (c : Char) (h : pyIsSpace c = true) :
    isWordChar c = false := by
  simp only [pyIsSpace, Bool.or_eq_true, decide_eq_true_eq] at h
  rcases h with ((((h | h) | h) | h) | h) | h <;> subst h <;> decide

theorem scanFrom_here (hit : List Char → Bool) (s : List Char)
    (h : hit s = true) : scanFrom hit s true = true := by
  cases s <;> simp [scanFrom, h]

theorem scanFrom_space_head (hit : List Char → Bool) (sp : Char)
    (rest : List Char) (hsp : pyIsSpace sp = true)
    (h : scanFrom hit rest true = true) (prevOk : Bool) :
    scanFrom hit (sp :: rest) prevOk = true := by
  simp [scanFrom, isWordChar_of_space sp hsp, h]

theorem scanFrom_append_any (hit : List Char → Bool) (s2 : List Char)
    (h : ∀ prevOk, scanFrom hit s2 prevOk = true) :
    ∀ (s1 : List Char) (prevOk : Bool), scanFrom hit (s1 ++ s2) prevOk = true := by
  intro s1
  induction s1 with
  | nil => intro prevOk; exact h prevOk
  | cons c s1 ih =>
    intro prevOk
    simp [scanFrom, ih (!isWordChar c)]

theorem scanFrom_of_parts (hit : List Char → Bool) (s1 : List Char) (sp : Char)
    (rest L : List Char) (hL : L = s1 ++ sp :: rest)
    (hsp : pyIsSpace sp = true) (hw : hit rest = true) :
    scanFrom hit L true = true := by
  subst hL
  exact scanFrom_append_any hit (sp :: rest)
    (fun prevOk => scanFrom_space_head hit sp rest hsp
      (scanFrom_here hit rest hw) prevOk) s1 true

theorem prefix_decomp (w t : List Char) (h : w.isPrefixOf t = true) :
    t = w ++ t.drop w.length := by
  have hp : w <+: t := by rwa [← List.isPrefixOf_iff_prefix]
  obtain ⟨u, hu⟩ := hp
  rw [← hu, List.drop_left]

theorem spacesThenWords_decomp (ws : List (List Char)) :
    ∀ s : List Char, spacesThenWords ws s = true →
    ∃ a sp rest w, s = a ++ sp :: rest ∧ pyIsSpace sp = true ∧ w ∈ ws ∧
      wordAt w rest = true := by
  intro s
  induction s with
  | nil => intro h; exact absurd h (by simp [spacesThenWords])
  | cons c s ih =>
    intro h
    simp only [spacesThenWords, Bool.and_eq_true, Bool.or_eq_true] at h
    obtain ⟨hc, h2 | h2⟩ := h
    · simp only [wordsAtBoundary, List.any_eq_true] at h2
      obtain ⟨w, hw, hwa⟩ := h2
      exact ⟨[], c, s, w, rfl, hc, hw, hwa⟩
    · obtain ⟨a, sp, rest, w, hs, hsp, hw, hwa⟩ := ih h2
      exact ⟨c :: a, sp, rest, w, by rw [hs]; rfl, hsp, hw, hwa⟩

/-- Common shape of the anchored pronoun-only patterns: a literal prefix
(after `^\s*`), then `\s+`, then one of `ws` with a right boundary; any
match yields a boundary-delimited occurrence of a word of `ws`. -/
theorem anchored_pattern_occurs (ws : List (List Char)) (pfx L : List Char)
    (hp : pfx.isPrefixOf (L.dropWhile pyIsSpace) = true)
    (hs : spacesThenWords ws ((L.dropWhile pyIsSpace).drop pfx.length) = true) :
    ∃ w ∈ ws, scanFrom (wordAt w) L true = true := by
  obtain ⟨a, sp, rest, w, hsplit, hsp, hw, hwa⟩ :=
    spacesThenWords_decomp ws _ hs
  refine ⟨w, hw, ?_⟩
  refine scanFrom_of_parts (wordAt w)
    (L.takeWhile pyIsSpace ++ pfx ++ a) sp rest L ?_ hsp hwa
  conv_lhs => rw [← List.takeWhile_append_dropWhile (p := pyIsSpace) (l := L)]
  rw [prefix_decomp pfx _ hp, hsplit]
  simp [List.append_assoc]

theorem scanFrom_mono (hit1 hit2 : List Char → Bool)
    (himp : ∀ s, hit1 s = true → hit2 s = true) :
    ∀ (s : List Char) (prevOk : Bool),
      scanFrom hit1 s prevOk = true → scanFrom hit2 s prevOk = true := by
  intro s
  induction s with
  | nil =>
    intro prevOk h
    simp only [scanFrom, Bool.and_eq_true] at h ⊢
    exact ⟨h.1, himp [] h.2⟩
  | cons c s ih =>
    intro prevOk h
    simp only [scanFrom, Bool.or_eq_true, Bool.and_eq_true] at h ⊢
    rcases h with ⟨h1, h2⟩ | h
    · exact Or.inl ⟨h1, himp _ h2⟩
    · exact Or.inr (ih _ h)

theorem spacesThenPerson_head (u : List Char)
    (hbound : wordBoundaryAfter u = true) :
    spacesThenPerson
      (' ' :: 'p' :: 'e' :: 'r' :: 's' :: 'o' :: 'n' :: u) = true := by
  show (pyIsSpace ' ' &&
    (personTail ('p' :: 'e' :: 'r' :: 's' :: 'o' :: 'n' :: u) ||
     spacesThenPerson ('p' :: 'e' :: 'r' :: 's' :: 'o' :: 'n' :: u))) = true
  have hpt : personTail ('p' :: 'e' :: 'r' :: 's' :: 'o' :: 'n' :: u) = true := by
    simp only [personTail, wordAt, Bool.and_eq_true]
    exact ⟨List.isPrefixOf_iff_prefix.mpr ⟨u, rfl⟩, hbound⟩
  have hsp : pyIsSpace ' ' = true := by decide
  simp [hpt, hsp]

theorem thatPersonAt_of_wordAt :
    ∀ w ∈ [['t', 'h', 'a', 't', ' ', 'p', 'e', 'r', 's', 'o', 'n'],
           ['t', 'h', 'i', 's', ' ', 'p', 'e', 'r', 's', 'o', 'n']],
    ∀ s : List Char, wordAt w s = true → thatPersonAt s = true := by
  intro w hw s h
  simp only [wordAt, Bool.and_eq_true] at h
  obtain ⟨hpre, hbound⟩ := h
  have hdecomp := prefix_decomp w s hpre
  simp only [List.mem_cons, List.not_mem_nil, or_false] at hw
  rcases hw with rfl | rfl
  · rw [hdecomp]
    simp only [thatPersonAt, Bool.or_eq_true, Bool.and_eq_true]
    exact Or.inl ⟨List.isPrefixOf_iff_prefix.mpr
      ⟨' ' :: 'p' :: 'e' :: 'r' :: 's' :: 'o' :: 'n' :: s.drop 11, rfl⟩,
      spacesThenPerson_head (s.drop 11) hbound⟩
  · rw [hdecomp]
    simp only [thatPersonAt, Bool.or_eq_true, Bool.and_eq_true]
    exact Or.inr ⟨List.isPrefixOf_iff_prefix.mpr
      ⟨' ' :: 'p' :: 'e' :: 'r' :: 's' :: 'o' :: 'n' :: s.drop 11, rfl⟩,
      spacesThenPerson_head (s.drop 11) hbound⟩

theorem subjectPronouns_sub :
    ∀ w ∈ subjectPronouns, w ∈ pronounWords := by decide

theorem whatAboutWords_sub :
    ∀ w ∈ [['h', 'i', 'm'], ['h', 'e', 'r'], ['t', 'h', 'e', 'm']],
      w ∈ pronounWords := by decide

theorem pronounOnly1_occurs (L : List Char) (h : pronounOnly1 L = true) :
    containsPronounWord L = true := by
  simp only [pronounOnly1, Bool.or_eq_true, Bool.and_eq_true] at h
  have key : ∃ w ∈ subjectPronouns, scanFrom (wordAt w) L true = true := by
    rcases h with ⟨hp, hs⟩ | ⟨hp, hs⟩
    · exact anchored_pattern_occurs subjectPronouns whoApoS L hp hs
    · exact anchored_pattern_occurs subjectPronouns "who is".data L hp hs
  obtain ⟨w, hw, hscan⟩ := key
  simp only [containsPronounWord, List.any_eq_true]
  exact ⟨w, subjectPronouns_sub w hw, hscan⟩

theorem pronounOnly2_occurs (L : List Char) (h : pronounOnly2 L = true) :
    containsPronounWord L = true := by
  simp only [pronounOnly2, Bool.or_eq_true, Bool.and_eq_true] at h
  have key : ∃ w ∈ subjectPronouns, scanFrom (wordAt w) L true = true := by
    rcases h with ⟨hp, hs⟩ | ⟨hp, hs⟩
    · exact anchored_pattern_occurs subjectPronouns whatApoS L hp hs
    · exact anchored_pattern_occurs subjectPronouns "what is".data L hp hs
  obtain ⟨w, hw, hscan⟩ := key
  simp only [containsPronounWord, List.any_eq_true]
  exact ⟨w, subjectPronouns_sub w hw, hscan⟩

theorem pronounOnly3_occurs (L : List Char) (h : pronounOnly3 L = true) :
    containsPronounWord L = true ∨ containsThatThisPerson L = true := by
  simp only [pronounOnly3, Bool.or_eq_true, Bool.and_eq_true] at h
  have key : ∃ w ∈ pronounOnly3Subjects, scanFrom (wordAt w) L true = true := by
    rcases h with (((⟨hp, hs⟩ | ⟨hp, hs⟩) | ⟨hp, hs⟩) | ⟨hp, hs⟩)
    · exact anchored_pattern_occurs _ "tell me about".data L hp hs
    · exact anchored_pattern_occurs _ "what do you know about".data L hp hs
    · exact anchored_pattern_occurs _ "give me info on".data L hp hs
    · exact anchored_pattern_occurs _ "give me background on".data L hp hs
  obtain ⟨w, hw, hscan⟩ := key
  simp only [pronounOnly3Subjects, List.mem_cons, List.not_mem_nil,
    or_false] at hw
  rcases hw with rfl | rfl | rfl | rfl | rfl | rfl
  · exact Or.inl (by
      simp only [containsPronounWord, List.any_eq_true]
      exact ⟨_, by decide, hscan⟩)
  · exact Or.inl (by
      simp only [containsPronounWord, List.any_eq_true]
      exact ⟨_, by decide, hscan⟩)
  · exact Or.inl (by
      simp only [containsPronounWord, List.any_eq_true]
      exact ⟨_, by decide, hscan⟩)
  · exact Or.inl (by
      simp only [containsPronounWord, List.any_eq_true]
      exact ⟨_, by decide, hscan⟩)
  · exact Or.inr (scanFrom_mono _ thatPersonAt
      (thatPersonAt_of_wordAt _ (by decide)) L true hscan)
  · exact Or.inr (scanFrom_mono _ thatPersonAt
      (thatPersonAt_of_wordAt _ (by decide)) L true hscan)

theorem whatAboutPronoun_occurs (L : List Char)
    (h : whatAboutPronoun L = true) : containsPronounWord L = true := by
  simp only [whatAboutPronoun, Bool.and_eq_true] at h
  obtain ⟨hp, hw⟩ := h
  simp only [wordsAtBoundary, List.any_eq_true] at hw
  obtain ⟨w, hwmem, hwa⟩ := hw
  have hL : L = (L.takeWhile pyIsSpace ++ "what about".data) ++ ' ' ::
      (L.dropWhile pyIsSpace).drop 11 := by
    conv_lhs => rw [← List.takeWhile_append_dropWhile (p := pyIsSpace) (l := L)]
    rw [prefix_decomp "what about ".data _ hp]
    simp [List.append_assoc]
  have hscan : scanFrom (wordAt w) L true = true :=
    scanFrom_of_parts (wordAt w) _ ' ' _ L hL (by decide) hwa
  simp only [containsPronounWord, List.any_eq_true]
  exact ⟨w, whatAboutWords_sub w hwmem, hscan⟩

theorem isAmbiguous_false_of_no_pronoun (p : List Char)
    (hpron : containsPronounWord (wsCollapse (pyLower p)) = false)
    (hperson : containsThatThisPerson (wsCollapse (pyLower p)) = false) :
    isAmbiguousFollowupPrompt p = false := by
  have hwa : whatAboutPronoun (wsCollapse (pyLower p)) = false := by
    cases h : whatAboutPronoun (wsCollapse (pyLower p))
    · rfl
    · rw [whatAboutPronoun_occurs _ h] at hpron; exact absurd hpron (by simp)
  have h1 : pronounOnly1 (wsCollapse (pyLower p)) = false := by
    cases h : pronounOnly1 (wsCollapse (pyLower p))
    · rfl
    · rw [pronounOnly1_occurs _ h] at hpron; exact absurd hpron (by simp)
  have h2 : pronounOnly2 (wsCollapse (pyLower p)) = false := by
    cases h : pronounOnly2 (wsCollapse (pyLower p))
    · rfl
    · rw [pronounOnly2_occurs _ h] at hpron; exact absurd hpron (by simp)
  have h3 : pronounOnly3 (wsCollapse (pyLower p)) = false := by
    cases h : pronounOnly3 (wsCollapse (pyLower p))
    · rfl
    · rcases pronounOnly3_occurs _ h with hc | hc
      · rw [hc] at hpron; exact absurd hpron (by simp)
      · rw [hc] at hperson; exact absurd hperson (by simp)
  unfold isAmbiguousFollowupPrompt
  by_cases hLe : wsCollapse (pyLower p) = []
  · simp [hLe]
  · simp [hLe, h1, h2, h3, hpron, hperson, hwa]

/-- C4 counterexample: a whitespace-only prompt contains no pronoun and no
"that/this person" phrase, yet `resolve_followup_prompt` returns reason
"empty_prompt", not "not_followup". -/
theorem followup_empty_prompt_reason :
    (resolveFollowupPrompt " ".data
      followupStubBranch).1.reason =
      "empty_prompt" ∧
    ¬ (resolveFollowupPrompt " ".data
      followupStubBranch).1.reason =
      "not_followup" ∧
    containsPronounWord (wsCollapse (pyLower (wsCollapse " ".data))) = false ∧
    containsThatThisPerson (wsCollapse (pyLower (wsCollapse " ".data))) =
      false := by
  refine ⟨rfl, by decide, by decide, by decide⟩

/-- C4 (amended): for every prompt whose whitespace collapse is non-empty
and whose lowered collapse contains no boundary-delimited pronoun
(he/she/they/him/her/them/it) and no "that/this person" phrase,
`resolve_followup_prompt` returns `needs_clarification = false` with
`resolved_prompt` equal to the whitespace-collapsed prompt and reason
"not_followup", without entering the ambiguous branch (so without
consulting the chat oracle); a whitespace-only prompt instead returns
reason "empty_prompt" (also without the oracle). -/
theorem followup_not_followup_passthrough (prompt : List Char)
    (k : List Char → FollowupResolutionDecision × Bool)
    (hne : wsCollapse prompt ≠ [])
    (hpron : containsPronounWord
      (wsCollapse (pyLower (wsCollapse prompt))) = false)
    (hperson : containsThatThisPerson
      (wsCollapse (pyLower (wsCollapse prompt))) = false) :
    resolveFollowupPrompt prompt k =
      ({ resolvedPrompt := wsCollapse prompt, needsClarification := false,
         clarificationText := none, reason := "not_followup",
         usedContext := false, confidence := 1, subjectHint := none },
       false) := by
  have hamb := isAmbiguous_false_of_no_pronoun (wsCollapse prompt) hpron hperson
  unfold resolveFollowupPrompt
  rw [if_neg hne, hamb]
  rfl

/-- Witness for C4's amended theorem at the pronoun-free prompt
"who is god". -/
theorem followup_not_followup_passthrough_witness :
    resolveFollowupPrompt "who is god".data
      followupStubBranch =
      ({ resolvedPrompt := wsCollapse "who is god".data,
         needsClarification := false, clarificationText := none,
         reason := "not_followup", usedContext := false, confidence := 1,
         subjectHint := none }, false) :=
  followup_not_followup_passthrough "who is god".data _
    (by decide) (by decide) (by decide)
/-! ## Supporting lemmas for `coerce_plain_text_reply` (claim C9) -/

theorem dropWhile_dropWhile_self (p : Char → Bool) (l : List Char) :
    (l.dropWhile p).dropWhile p = l.dropWhile p := by
  induction l with
  | nil => rfl
  | cons c rest ih =>
    by_cases h : p c
    · rw [List.dropWhile_cons_of_pos h]; exact ih
    · rw [List.dropWhile_cons_of_neg h, List.dropWhile_cons_of_neg h]

theorem head?_dropWhile_false (p : Char → Bool) (l : List Char) (c : Char)
    (h : (l.dropWhile p).head? = some c) : p c = false := by
  induction l with
  | nil => simp at h
  | cons a rest ih =>
    by_cases ha : p a
    · rw [List.dropWhile_cons_of_pos ha] at h; exact ih h
    · rw [List.dropWhile_cons_of_neg ha] at h
      have : a = c := by simpa using h
      subst this
      cases hpa : p a
      · rfl
      · exact absurd hpa ha

theorem pyStrip_prefix_dropWhile (s : List Char) :
    pyStrip s <+: s.dropWhile pyIsSpace := by
  have h1 : ((s.dropWhile pyIsSpace).reverse.dropWhile pyIsSpace) <:+
      (s.dropWhile pyIsSpace).reverse := List.dropWhile_suffix _
  have h2 := List.reverse_prefix.mpr h1
  rwa [List.reverse_reverse] at h2

theorem pyStrip_dropWhile (s : List Char) :
    (pyStrip s).dropWhile pyIsSpace = pyStrip s := by
  cases hps : pyStrip s with
  | nil => rfl
  | cons c t =>
    have hpre := pyStrip_prefix_dropWhile s
    rw [hps] at hpre
    obtain ⟨w, hw⟩ := hpre
    have hc : pyIsSpace c = false := by
      apply head?_dropWhile_false pyIsSpace s c
      rw [← hw]; rfl
    rw [List.dropWhile_cons_of_neg (by simp [hc])]

theorem pyStrip_idem (s : List Char) : pyStrip (pyStrip s) = pyStrip s := by
  show (((pyStrip s).dropWhile pyIsSpace).reverse.dropWhile
    pyIsSpace).reverse = pyStrip s
  rw [pyStrip_dropWhile s]
  show (((((s.dropWhile pyIsSpace).reverse.dropWhile
    pyIsSpace).reverse).reverse.dropWhile pyIsSpace)).reverse = pyStrip s
  rw [List.reverse_reverse, dropWhile_dropWhile_self]
  rfl

theorem pySplit_cons (c : Char) (rest : List Char) :
    pySplit (c :: rest) =
      if pyIsSpace c then pySplit rest
      else
        match pySplit rest with
        | [] => [[c]]
        | w :: ws =>
          match rest with
          | [] => [[c]]
          | r :: _ =>
            if pyIsSpace r then [c] :: w :: ws else (c :: w) :: ws := by
  rw [pySplit.eq_def]

theorem pySplit_wf (s : List Char) :
    ∀ w ∈ pySplit s, w ≠ [] ∧ ∀ c ∈ w, pyIsSpace c = false := by
  induction s with
  | nil => intro w hw; simp [pySplit] at hw
  | cons c rest ih =>
    intro w hw
    rw [pySplit_cons] at hw
    by_cases hc : pyIsSpace c
    · rw [if_pos hc] at hw; exact ih w hw
    · rw [if_neg hc] at hw
      have hcf : pyIsSpace c = false := by
        cases hpc : pyIsSpace c
        · rfl
        · exact absurd hpc hc
      cases hps : pySplit rest with
      | nil =>
        rw [hps] at hw
        have hwc : w = [c] := by simpa using hw
        subst hwc
        refine ⟨by simp, ?_⟩
        intro x hx
        have hxc : x = c := by simpa using hx
        subst hxc; exact hcf
      | cons w0 ws =>
        rw [hps] at hw
        cases rest with
        | nil => simp [pySplit] at hps
        | cons r rtail =>
          simp only at hw
          by_cases hr : pyIsSpace r
          · rw [if_pos hr] at hw
            rcases List.mem_cons.mp hw with h | h
            · subst h
              refine ⟨by simp, ?_⟩
              intro x hx
              have hxc : x = c := by simpa using hx
              subst hxc; exact hcf
            · exact ih w (hps ▸ h)
          · rw [if_neg hr] at hw
            rcases List.mem_cons.mp hw with h | h
            · subst h
              have hw0 := ih w0 (by rw [hps]; exact List.mem_cons_self _ _)
              refine ⟨by simp, ?_⟩
              intro x hx
              rcases List.mem_cons.mp hx with h | h
              · subst h; exact hcf
              · exact hw0.2 x h
            · exact ih w (by rw [hps]; exact List.mem_cons_of_mem _ h)

theorem pySplit_sub (s : List Char) :
    ∀ w ∈ pySplit s, ∀ x ∈ w, x ∈ s := by
  induction s with
  | nil => intro w hw; simp [pySplit] at hw
  | cons c rest ih =>
    intro w hw x hx
    rw [pySplit_cons] at hw
    by_cases hc : pyIsSpace c
    · rw [if_pos hc] at hw
      exact List.mem_cons_of_mem _ (ih w hw x hx)
    · rw [if_neg hc] at hw
      cases hps : pySplit rest with
      | nil =>
        rw [hps] at hw
        have hwc : w = [c] := by simpa using hw
        subst hwc
        have hxc : x = c := by simpa using hx
        subst hxc; exact List.mem_cons_self _ _
      | cons w0 ws =>
        rw [hps] at hw
        cases rest with
        | nil => simp [pySplit] at hps
        | cons r rtail =>
          simp only at hw
          by_cases hr : pyIsSpace r
          · rw [if_pos hr] at hw
            rcases List.mem_cons.mp hw with h | h
            · subst h
              have hxc : x = c := by simpa using hx
              subst hxc; exact List.mem_cons_self _ _
            · exact List.mem_cons_of_mem _ (ih w (hps ▸ h) x hx)
          · rw [if_neg hr] at hw
            rcases List.mem_cons.mp hw with h | h
            · subst h
              rcases List.mem_cons.mp hx with hxc | hxm
              · subst hxc; exact List.mem_cons_self _ _
              · exact List.mem_cons_of_mem _
                  (ih w0 (by rw [hps]; exact List.mem_cons_self _ _) x hxm)
            · exact List.mem_cons_of_mem _
                (ih w (by rw [hps]; exact List.mem_cons_of_mem _ h) x hx)

theorem pySplit_space_cons (c : Char) (rest : List Char)
    (h : pyIsSpace c = true) : pySplit (c :: rest) = pySplit rest := by
  rw [pySplit_cons, if_pos h]

theorem joinSp_nil : joinSp [] = [] := rfl

theorem joinSp_singleton (w : List Char) : joinSp [w] = w := by
  simp [joinSp]

theorem joinSp_cons₂ (a b : List Char) (t : List (List Char)) :
    joinSp (a :: b :: t) = a ++ ' ' :: joinSp (b :: t) := by
  simp [joinSp, List.intersperse]

theorem pySplit_word_append (w : List Char) (hne : w ≠ [])
    (hch : ∀ c ∈ w, pyIsSpace c = false) (rest : List Char)
    (hrest : rest = [] ∨ ∃ r t, rest = r :: t ∧ pyIsSpace r = true) :
    pySplit (w ++ rest) = w :: pySplit rest := by
  induction w with
  | nil => exact absurd rfl hne
  | cons c w' ih =>
    have hcf : pyIsSpace c = false := hch c (List.mem_cons_self _ _)
    have hcn : ¬ (pyIsSpace c = true) := by simp [hcf]
    cases hw' : w' with
    | nil =>
      rcases hrest with hr | ⟨r, t, hr, hsp⟩
      · subst hr
        simp only [List.cons_append, List.nil_append, List.append_nil]
        rw [pySplit_cons, if_neg hcn]
        rfl
      · subst hr
        simp only [List.cons_append, List.nil_append]
        rw [pySplit_cons, if_neg hcn, pySplit_space_cons r t hsp]
        cases hps : pySplit t with
        | nil => rfl
        | cons w0 ws => simp [hsp]
    | cons c2 w'' =>
      subst hw'
      have ihe := ih (by simp) (fun x hx => hch x (List.mem_cons_of_mem _ hx))
      show pySplit (c :: ((c2 :: w'') ++ rest)) =
        (c :: c2 :: w'') :: pySplit rest
      rw [pySplit_cons, if_neg hcn, ihe]
      have hc2f : pyIsSpace c2 = false := hch c2 (by simp)
      simp only [List.cons_append]
      rw [if_neg (by simp [hc2f])]

theorem pySplit_joinSp (ws : List (List Char))
    (h : ∀ w ∈ ws, w ≠ [] ∧ ∀ c ∈ w, pyIsSpace c = false) :
    pySplit (joinSp ws) = ws := by
  induction ws with
  | nil => rfl
  | cons w ws' ih =>
    have hw := h w (List.mem_cons_self _ _)
    cases ws' with
    | nil =>
      rw [joinSp_singleton]
      have := pySplit_word_append w hw.1 hw.2 [] (Or.inl rfl)
      rw [List.append_nil] at this
      rw [this]
      rfl
    | cons b t =>
      rw [joinSp_cons₂]
      rw [pySplit_word_append w hw.1 hw.2 (' ' :: joinSp (b :: t))
        (Or.inr ⟨' ', joinSp (b :: t), rfl, by decide⟩)]
      rw [pySplit_space_cons _ _ (by decide)]
      rw [ih (fun x hx => h x (List.mem_cons_of_mem _ hx))]

theorem wsCollapse_eq_joinSp (s : List Char) :
    wsCollapse s = joinSp (pySplit s) := rfl

theorem wsCollapse_idem (s : List Char) :
    wsCollapse (wsCollapse s) = wsCollapse s := by
  rw [wsCollapse_eq_joinSp, wsCollapse_eq_joinSp,
    pySplit_joinSp (pySplit s) (pySplit_wf s)]

theorem joinSp_ne_nil (w : List Char) (ws : List (List Char))
    (hw : w ≠ []) : joinSp (w :: ws) ≠ [] := by
  cases ws with
  | nil => rw [joinSp_singleton]; exact hw
  | cons b t =>
    rw [joinSp_cons₂]
    cases w with
    | nil => exact absurd rfl hw
    | cons c w' => simp

theorem joinSp_head_nonspace (ws : List (List Char))
    (h : ∀ w ∈ ws, w ≠ [] ∧ ∀ c ∈ w, pyIsSpace c = false) (c : Char)
    (hc : (joinSp ws).head? = some c) : pyIsSpace c = false := by
  cases ws with
  | nil => simp [joinSp_nil] at hc
  | cons w ws' =>
    have hw := h w (List.mem_cons_self _ _)
    cases hwc : w with
    | nil => exact absurd hwc hw.1
    | cons a w' =>
      have hmem : a = c := by
        cases ws' with
        | nil =>
          rw [joinSp_singleton, hwc] at hc
          simpa using hc
        | cons b t =>
          rw [joinSp_cons₂, hwc] at hc
          simpa using hc
      subst hmem
      exact hw.2 _ (by rw [hwc]; exact List.mem_cons_self _ _)

theorem joinSp_last_nonspace (ws : List (List Char))
    (h : ∀ w ∈ ws, w ≠ [] ∧ ∀ c ∈ w, pyIsSpace c = false) (c : Char)
    (hc : (joinSp ws).getLast? = some c) : pyIsSpace c = false := by
  induction ws with
  | nil => simp [joinSp_nil] at hc
  | cons w ws' ih =>
    have hw := h w (List.mem_cons_self _ _)
    cases ws' with
    | nil =>
      rw [joinSp_singleton] at hc
      have : c ∈ w := by
        have hne : w ≠ [] := hw.1
        rw [List.getLast?_eq_getLast w hne] at hc
        have hcc : c = w.getLast hne := by simpa using hc.symm
        rw [hcc]
        exact List.getLast_mem hne
      exact hw.2 c this
    | cons b t =>
      rw [joinSp_cons₂] at hc
      have hb := h b (List.mem_cons_of_mem _ (List.mem_cons_self _ _))
      have hne : (' ' :: joinSp (b :: t)) ≠ [] := by simp
      rw [List.getLast?_append_of_ne_nil _ hne] at hc
      have hne2 : joinSp (b :: t) ≠ [] := joinSp_ne_nil b t hb.1
      have : (' ' :: joinSp (b :: t)).getLast? = (joinSp (b :: t)).getLast? := by
        show ([' '] ++ joinSp (b :: t)).getLast? = _
        exact List.getLast?_append_of_ne_nil _ hne2
      rw [this] at hc
      exact ih (fun x hx => h x (List.mem_cons_of_mem _ hx)) hc

theorem mem_intersperse (sep : List Char) (ls : List (List Char))
    (x : List Char) (hx : x ∈ List.intersperse sep ls) :
    x ∈ ls ∨ x = sep := by
  induction ls with
  | nil => simp [List.intersperse] at hx
  | cons a t ih =>
    cases t with
    | nil =>
      simp [List.intersperse] at hx
      exact Or.inl (by simp [hx])
    | cons b t' =>
      rw [show List.intersperse sep (a :: b :: t') =
        a :: sep :: List.intersperse sep (b :: t') from rfl] at hx
      rcases List.mem_cons.mp hx with h | h
      · exact Or.inl (h ▸ List.mem_cons_self _ _)
      · rcases List.mem_cons.mp h with h2 | h2
        · exact Or.inr h2
        · rcases ih h2 with h3 | h3
          · exact Or.inl (List.mem_cons_of_mem _ h3)
          · exact Or.inr h3

theorem mem_joinSp (ws : List (List Char)) (x : Char)
    (hx : x ∈ joinSp ws) : (∃ w ∈ ws, x ∈ w) ∨ x = ' ' := by
  rw [joinSp] at hx
  obtain ⟨part, hpart, hxp⟩ := List.mem_flatten.mp hx
  rcases mem_intersperse [' '] ws part hpart with h | h
  · exact Or.inl ⟨part, h, hxp⟩
  · subst h
    exact Or.inr (by simpa using hxp)

theorem mem_wsCollapse (s : List Char) (x : Char)
    (hx : x ∈ wsCollapse s) : x ∈ s ∨ x = ' ' := by
  rcases mem_joinSp (pySplit s) x hx with ⟨w, hw, hxw⟩ | h
  · exact Or.inl (pySplit_sub s w hw x hxw)
  · exact Or.inr h

theorem isBreak_imp_space (c : Char) (h : isBreakChar c = true) :
    pyIsSpace c = true := by
  rw [isBreakChar] at h
  rcases (by simpa using h : ((c = '\n' ∨ c = '\x0d') ∨ c = Char.ofNat 11) ∨
      c = Char.ofNat 12) with ((h | h) | h) | h <;>
    (subst h; decide)

theorem wsCollapse_no_break (s : List Char) (x : Char)
    (hx : x ∈ wsCollapse s) : isBreakChar x = false := by
  rcases mem_joinSp (pySplit s) x hx with ⟨w, hw, hxw⟩ | h
  · have := (pySplit_wf s w hw).2 x hxw
    cases hb : isBreakChar x
    · rfl
    · exact absurd (isBreak_imp_space x hb) (by simp [this])
  · subst h; rfl

/-! ### Splitlines and newline-join -/

theorem normCRLF_eq_self (s : List Char) (h : ∀ x ∈ s, x ≠ '\r') :
    normCRLF s = s := by
  induction s using normCRLF.induct with
  | case1 rest ih =>
    exact absurd rfl (h '\r' (List.mem_cons_self _ _))
  | case2 c rest hne ih =>
    rw [normCRLF.eq_def]
    split
    · next r heq =>
      injection heq with h1 h2
      exact absurd h1 (h c (List.mem_cons_self _ _))
    · next c2 r2 heq =>
      injection heq with h1 h2
      subst h1; subst h2
      rw [ih (fun x hx => h x (List.mem_cons_of_mem _ hx))]
    · next heq => exact absurd heq (by simp)
  | case3 => rfl

theorem normCRLF_sub (s : List Char) (x : Char) (hx : x ∈ normCRLF s) :
    x ∈ s := by
  induction s using normCRLF.induct with
  | case1 rest ih =>
    rw [normCRLF.eq_def] at hx
    simp only at hx
    rcases List.mem_cons.mp hx with h | h
    · subst h; exact List.mem_cons_of_mem _ (List.mem_cons_self _ _)
    · exact List.mem_cons_of_mem _ (List.mem_cons_of_mem _ (ih h))
  | case2 c rest hne ih =>
    rw [normCRLF.eq_def] at hx
    split at hx
    · next r heq =>
      injection heq with h1 h2
      exact absurd h2 (fun hh => hne r h1 hh)
    · next c2 r2 heq =>
      injection heq with h1 h2
      subst h1; subst h2
      rcases List.mem_cons.mp hx with h | h
      · subst h; exact List.mem_cons_self _ _
      · exact List.mem_cons_of_mem _ (ih h)
    · next heq => exact absurd heq (by simp)
  | case3 =>
    rw [normCRLF.eq_def] at hx
    exact absurd hx (by simp)

theorem splitBreak_cons (c : Char) (rest : List Char) :
    splitBreak (c :: rest) =
      if isBreakChar c then ([], some rest)
      else (c :: (splitBreak rest).1, (splitBreak rest).2) := rfl

theorem splitBreak_no_break (l : List Char)
    (h : ∀ x ∈ l, isBreakChar x = false) : splitBreak l = (l, none) := by
  induction l with
  | nil => rfl
  | cons c rest ih =>
    have hc : isBreakChar c = false := h c (List.mem_cons_self _ _)
    rw [splitBreak_cons, if_neg (by simp [hc]),
      ih (fun x hx => h x (List.mem_cons_of_mem _ hx))]

theorem splitBreak_append (l t : List Char)
    (h : ∀ x ∈ l, isBreakChar x = false) :
    splitBreak (l ++ '\n' :: t) = (l, some t) := by
  induction l with
  | nil =>
    rw [List.nil_append, splitBreak_cons, if_pos (by decide)]
  | cons c rest ih =>
    have hc : isBreakChar c = false := h c (List.mem_cons_self _ _)
    rw [List.cons_append, splitBreak_cons, if_neg (by simp [hc]),
      ih (fun x hx => h x (List.mem_cons_of_mem _ hx))]

theorem splitBreak_sub_fst (s : List Char) (x : Char)
    (hx : x ∈ (splitBreak s).1) : x ∈ s := by
  induction s with
  | nil => simp [splitBreak] at hx
  | cons c rest ih =>
    rw [splitBreak_cons] at hx
    by_cases hb : isBreakChar c
    · rw [if_pos hb] at hx; simp at hx
    · rw [if_neg hb] at hx
      rcases List.mem_cons.mp hx with h | h
      · subst h; exact List.mem_cons_self _ _
      · exact List.mem_cons_of_mem _ (ih h)

theorem splitBreak_sub_snd (s : List Char) (r : List Char)
    (hr : (splitBreak s).2 = some r) (x : Char) (hx : x ∈ r) : x ∈ s := by
  induction s with
  | nil => simp [splitBreak] at hr
  | cons c rest ih =>
    rw [splitBreak_cons] at hr
    by_cases hb : isBreakChar c
    · rw [if_pos hb] at hr
      have : rest = r := by simpa using hr
      subst this
      exact List.mem_cons_of_mem _ hx
    · rw [if_neg hb] at hr
      exact List.mem_cons_of_mem _ (ih hr)

theorem pySplitlinesAux_nil (fuel : Nat) : pySplitlinesAux fuel [] = [] := by
  cases fuel <;> rfl

theorem pySplitlinesAux_succ_cons (f : Nat) (c : Char) (s : List Char) :
    pySplitlinesAux (f + 1) (c :: s) =
      match splitBreak (c :: s) with
      | (l, none) => [l]
      | (l, some rest) => l :: pySplitlinesAux f rest := rfl

theorem pySplitlinesAux_sub (fuel : Nat) :
    ∀ s l, l ∈ pySplitlinesAux fuel s → ∀ x ∈ l, x ∈ s := by
  induction fuel with
  | zero =>
    intro s l hl x hx
    cases s with
    | nil => simp [pySplitlinesAux_nil] at hl
    | cons c s' =>
      have : l = c :: s' := by simpa [pySplitlinesAux] using hl
      subst this; exact hx
  | succ f ih =>
    intro s l hl x hx
    cases s with
    | nil => simp [pySplitlinesAux_nil] at hl
    | cons c s' =>
      rw [pySplitlinesAux_succ_cons] at hl
      cases hsb : splitBreak (c :: s') with
      | mk l0 o =>
        rw [hsb] at hl
        cases o with
        | none =>
          have : l = l0 := by simpa using hl
          subst this
          exact splitBreak_sub_fst _ x (by rw [hsb]; exact hx)
        | some r =>
          rcases List.mem_cons.mp hl with h | h
          · subst h
            exact splitBreak_sub_fst _ x (by rw [hsb]; exact hx)
          · exact splitBreak_sub_snd (c :: s') r (by rw [hsb]) x
              (ih r l h x hx)

theorem pySplitlines_sub (s : List Char) (l : List Char)
    (hl : l ∈ pySplitlines s) (x : Char) (hx : x ∈ l) : x ∈ s := by
  exact normCRLF_sub s x (pySplitlinesAux_sub _ _ l hl x hx)

theorem joinNL_nil : joinNL [] = [] := rfl

theorem joinNL_singleton (l : List Char) : joinNL [l] = l := by
  simp [joinNL]

theorem joinNL_cons₂ (a b : List Char) (t : List (List Char)) :
    joinNL (a :: b :: t) = a ++ '\n' :: joinNL (b :: t) := by
  simp [joinNL, List.intersperse]

theorem joinNL_append_single (A : List (List Char)) (w : List Char)
    (hA : A ≠ []) : joinNL (A ++ [w]) = joinNL A ++ '\n' :: w := by
  induction A with
  | nil => exact absurd rfl hA
  | cons a A' ih =>
    cases A' with
    | nil =>
      rw [List.cons_append, List.nil_append, joinNL_cons₂,
        joinNL_singleton, joinNL_singleton]
    | cons b A'' =>
      have h1 : (a :: b :: A'') ++ [w] = a :: b :: (A'' ++ [w]) := by simp
      rw [h1, joinNL_cons₂, joinNL_cons₂]
      have h2 : joinNL (b :: (A'' ++ [w])) = joinNL (b :: A'') ++ '\n' :: w := by
        have h3 := ih (by simp)
        rwa [show (b :: A'') ++ [w] = b :: (A'' ++ [w]) from by simp] at h3
      rw [h2]
      simp [List.append_assoc]

theorem joinNL_reverse (L : List (List Char)) :
    (joinNL L).reverse = joinNL (L.reverse.map List.reverse) := by
  induction L with
  | nil => rfl
  | cons l L' ih =>
    cases L' with
    | nil => simp [joinNL_singleton]
    | cons b t =>
      rw [joinNL_cons₂]
      rw [List.reverse_append, List.reverse_cons]
      rw [show ((l :: b :: t).reverse.map List.reverse) =
        ((b :: t).reverse.map List.reverse) ++ [l.reverse] by simp]
      rw [joinNL_append_single _ _ (by simp), ← ih]
      simp

theorem mem_joinNL (C : List (List Char)) (x : Char)
    (hx : x ∈ joinNL C) : (∃ l ∈ C, x ∈ l) ∨ x = '\n' := by
  rw [joinNL] at hx
  obtain ⟨part, hpart, hxp⟩ := List.mem_flatten.mp hx
  rcases mem_intersperse ['\n'] C part hpart with h | h
  · exact Or.inl ⟨part, h, hxp⟩
  · subst h
    exact Or.inr (by simpa using hxp)

theorem splitlinesAux_joinNL (M : List (List Char))
    (hbf : ∀ l ∈ M, ∀ c ∈ l, isBreakChar c = false)
    (hlast : M.getLast? ≠ some []) :
    ∀ fuel, (joinNL M).length ≤ fuel →
      pySplitlinesAux fuel (joinNL M) = M := by
  induction M with
  | nil => intro fuel _; rw [joinNL_nil, pySplitlinesAux_nil]
  | cons l M' ih =>
    intro fuel hfuel
    cases M' with
    | nil =>
      have hlne : l ≠ [] := by
        intro h
        exact hlast (by rw [h]; rfl)
      rw [joinNL_singleton] at hfuel ⊢
      cases l with
      | nil => exact absurd rfl hlne
      | cons c l' =>
        have : 1 ≤ fuel := le_trans (by simp) hfuel
        obtain ⟨f, rfl⟩ : ∃ f, fuel = f + 1 :=
          ⟨fuel - 1, by omega⟩
        rw [pySplitlinesAux_succ_cons,
          splitBreak_no_break (c :: l')
            (hbf (c :: l') (List.mem_cons_self _ _))]
    | cons r M'' =>
      rw [joinNL_cons₂] at hfuel ⊢
      have hlb : ∀ x ∈ l, isBreakChar x = false :=
        hbf l (List.mem_cons_self _ _)
      have hsb := splitBreak_append l (joinNL (r :: M'')) hlb
      have hlen : (l ++ '\n' :: joinNL (r :: M'')).length =
          l.length + 1 + (joinNL (r :: M'')).length := by
        simp; omega
      have h1 : 1 ≤ fuel := by
        have : 1 ≤ (l ++ '\n' :: joinNL (r :: M'')).length := by
          rw [hlen]; omega
        omega
      obtain ⟨f, rfl⟩ : ∃ f, fuel = f + 1 := ⟨fuel - 1, by omega⟩
      have hrec : pySplitlinesAux f (joinNL (r :: M'')) = r :: M'' := by
        apply ih (fun x hx => hbf x (List.mem_cons_of_mem _ hx))
        · simpa using hlast
        · rw [hlen] at hfuel; omega
      cases l with
      | nil =>
        rw [List.nil_append] at hsb ⊢
        rw [pySplitlinesAux_succ_cons, hsb]
        show [] :: pySplitlinesAux f (joinNL (r :: M'')) = [] :: r :: M''
        rw [hrec]
      | cons c l' =>
        rw [List.cons_append] at hsb ⊢
        rw [pySplitlinesAux_succ_cons, hsb]
        show (c :: l') :: pySplitlinesAux f (joinNL (r :: M'')) =
          (c :: l') :: r :: M''
        rw [hrec]

theorem splitlines_joinNL (M : List (List Char))
    (hbf : ∀ l ∈ M, ∀ c ∈ l, isBreakChar c = false)
    (hlast : M.getLast? ≠ some []) :
    pySplitlines (joinNL M) = M := by
  have hnr : ∀ x ∈ joinNL M, x ≠ '\r' := by
    intro x hx heq
    rcases mem_joinNL M x hx with ⟨l, hl, hxl⟩ | h
    · have := hbf l hl x hxl
      subst heq
      simp [isBreakChar] at this
    · subst h; exact absurd heq (by decide)
  rw [pySplitlines, normCRLF_eq_self _ hnr]
  exact splitlinesAux_joinNL M hbf hlast _ (le_refl _)

/-! ### Trimming blank edge lines -/

theorem dropLB_nil : dropLB [] = [] := rfl

theorem dropLB_blank (rest : List (List Char)) :
    dropLB ([] :: rest) = rest := rfl

theorem dropLB_cons_ne (x : List Char) (t : List (List Char)) (hx : x ≠ []) :
    dropLB (x :: t) = x :: t := by
  cases x with
  | nil => exact absurd rfl hx
  | cons c x' => rfl

theorem mem_dropLB (M : List (List Char)) (l : List Char)
    (hl : l ∈ dropLB M) : l ∈ M := by
  cases M with
  | nil => rw [dropLB_nil] at hl; exact hl
  | cons m rest =>
    cases m with
    | nil => exact List.mem_cons_of_mem _ (by rwa [dropLB_blank] at hl)
    | cons c m' => rwa [dropLB_cons_ne _ _ (by simp)] at hl

theorem mem_dropTB (M : List (List Char)) (l : List Char)
    (hl : l ∈ dropTB M) : l ∈ M := by
  rw [dropTB] at hl
  have := mem_dropLB M.reverse l (List.mem_reverse.mp hl)
  exact List.mem_reverse.mp this

theorem noConsec_dropLB (M : List (List Char)) (h : noConsecBlank M) :
    noConsecBlank (dropLB M) := by
  cases M with
  | nil => exact h
  | cons m rest =>
    cases m with
    | nil =>
      rw [dropLB_blank]
      exact (List.chain'_cons'.mp h).2
    | cons c m' => rwa [dropLB_cons_ne _ _ (by simp)]

theorem noConsec_reverse (M : List (List Char)) :
    noConsecBlank M.reverse ↔ noConsecBlank M := by
  unfold noConsecBlank
  rw [List.chain'_reverse]
  constructor
  · intro h
    exact h.imp (fun a b hab hba => hab ⟨hba.2, hba.1⟩)
  · intro h
    exact h.imp (fun a b hab hba => hab ⟨hba.2, hba.1⟩)

theorem noConsec_dropTB (M : List (List Char)) (h : noConsecBlank M) :
    noConsecBlank (dropTB M) := by
  rw [dropTB]
  rw [noConsec_reverse]
  exact noConsec_dropLB _ ((noConsec_reverse M).mpr h)

theorem head?_dropLB_ne_blank (K : List (List Char)) (h : noConsecBlank K) :
    (dropLB K).head? ≠ some [] := by
  cases K with
  | nil => simp [dropLB_nil]
  | cons m rest =>
    cases m with
    | nil =>
      rw [dropLB_blank]
      cases rest with
      | nil => simp
      | cons r t =>
        have := (List.chain'_cons.mp h).1
        intro heq
        have hr : r = [] := by simpa using heq
        exact this ⟨rfl, hr⟩
    | cons c m' =>
      rw [dropLB_cons_ne _ _ (by simp)]
      simp

theorem head?_prefix_ne_blank (w K : List (List Char))
    (hpre : w <+: K) (hK : K.head? ≠ some []) : w.head? ≠ some [] := by
  cases w with
  | nil => simp
  | cons a w' =>
    obtain ⟨t, ht⟩ := hpre
    intro heq
    have ha : a = [] := by simpa using heq
    apply hK
    rw [← ht]
    simp [ha]

theorem dropTB_prefix_self (K : List (List Char)) : dropTB K <+: K := by
  rw [dropTB]
  have hsuf : dropLB K.reverse <:+ K.reverse := by
    cases hK : K.reverse with
    | nil => rw [dropLB_nil]
    | cons m rest =>
      cases m with
      | nil =>
        rw [dropLB_blank]
        exact ⟨[[]], rfl⟩
      | cons c m' =>
        rw [dropLB_cons_ne _ _ (by simp)]
  have := List.reverse_prefix.mpr hsuf
  rwa [List.reverse_reverse] at this

theorem dropLB_map_rev (K : List (List Char)) :
    dropLB (K.map List.reverse) = (dropLB K).map List.reverse := by
  cases K with
  | nil => rfl
  | cons m t =>
    cases m with
    | nil => rfl
    | cons c m' =>
      rw [dropLB_cons_ne _ _ (by simp)]
      rw [List.map_cons, dropLB_cons_ne _ _ (by simp)]

theorem dropLB_id (K : List (List Char)) (h : K.head? ≠ some []) :
    dropLB K = K := by
  cases K with
  | nil => rfl
  | cons m t =>
    cases m with
    | nil =>
      exact absurd (show (([] : List Char) :: t).head? = some [] from rfl) h
    | cons c m' => exact dropLB_cons_ne _ _ (by simp)

theorem dropTB_id (K : List (List Char)) (h : K.getLast? ≠ some []) :
    dropTB K = K := by
  rw [dropTB, dropLB_id K.reverse (by rwa [List.head?_reverse]),
    List.reverse_reverse]

theorem dropWhile_joinNL (M : List (List Char))
    (hhead : ∀ l ∈ M, ∀ c, l.head? = some c → pyIsSpace c = false)
    (hnc : noConsecBlank M) :
    (joinNL M).dropWhile pyIsSpace = joinNL (dropLB M) := by
  cases M with
  | nil => rfl
  | cons m rest =>
    cases m with
    | nil =>
      rw [dropLB_blank]
      cases rest with
      | nil => rfl
      | cons r rest' =>
        have hr : r ≠ [] := by
          intro h
          exact (List.chain'_cons.mp hnc).1 ⟨rfl, h⟩
        rw [joinNL_cons₂, List.nil_append]
        rw [List.dropWhile_cons_of_pos (by decide)]
        cases hrc : r with
        | nil => exact absurd hrc hr
        | cons c r' =>
          have hc : pyIsSpace c = false := by
            apply hhead r (List.mem_cons_of_mem _ (List.mem_cons_self _ _))
            rw [hrc]; rfl
          cases rest' with
          | nil =>
            rw [joinNL_singleton,
              List.dropWhile_cons_of_neg (by simp [hc])]
          | cons b t =>
            rw [joinNL_cons₂, List.cons_append,
              List.dropWhile_cons_of_neg (by simp [hc])]
    | cons c m' =>
      have hc : pyIsSpace c = false := by
        apply hhead (c :: m') (List.mem_cons_self _ _)
        rfl
      rw [dropLB_cons_ne _ _ (by simp)]
      cases rest with
      | nil =>
        rw [joinNL_singleton, List.dropWhile_cons_of_neg (by simp [hc])]
      | cons b t =>
        rw [joinNL_cons₂, List.cons_append,
          List.dropWhile_cons_of_neg (by simp [hc])]

theorem pyStrip_joinNL (M : List (List Char))
    (hhead : ∀ l ∈ M, ∀ c, l.head? = some c → pyIsSpace c = false)
    (hlast : ∀ l ∈ M, ∀ c, l.getLast? = some c → pyIsSpace c = false)
    (hnc : noConsecBlank M) :
    pyStrip (joinNL M) = joinNL (dropTB (dropLB M)) := by
  have hN := noConsec_dropLB M hnc
  have hstep1 : (joinNL M).dropWhile pyIsSpace = joinNL (dropLB M) :=
    dropWhile_joinNL M hhead hnc
  show (((joinNL M).dropWhile pyIsSpace).reverse.dropWhile
    pyIsSpace).reverse = _
  rw [hstep1]
  rw [joinNL_reverse]
  have hhead2 : ∀ l ∈ ((dropLB M).reverse.map List.reverse), ∀ c,
      l.head? = some c → pyIsSpace c = false := by
    intro l hl c hc
    obtain ⟨l0, hl0, rfl⟩ := List.mem_map.mp hl
    have hl0M : l0 ∈ M := mem_dropLB M l0 (List.mem_reverse.mp hl0)
    rw [List.head?_reverse] at hc
    exact hlast l0 hl0M c hc
  have hnc2 : noConsecBlank ((dropLB M).reverse.map List.reverse) := by
    unfold noConsecBlank
    rw [List.chain'_map]
    rw [List.chain'_reverse]
    exact hN.imp (fun a b hab hba => by
      apply hab
      constructor
      · exact List.reverse_eq_nil_iff.mp hba.2
      · exact List.reverse_eq_nil_iff.mp hba.1)
  rw [dropWhile_joinNL _ hhead2 hnc2,
    show dropLB ((dropLB M).reverse.map List.reverse) =
      (dropLB (dropLB M).reverse).map List.reverse from
      dropLB_map_rev (dropLB M).reverse,
    joinNL_reverse, List.map_reverse, List.map_map]
  rw [show (List.reverse ∘ List.reverse : List Char → List Char) = id from
    funext (fun l => List.reverse_reverse l), List.map_id]
  rfl

/-! ### The blank-line collapse loop -/

theorem collapseLinesAux_cons (b : Bool) (line : List Char)
    (rest : List (List Char)) :
    collapseLinesAux b (line :: rest) =
      if wsCollapse line = [] then
        if b then collapseLinesAux true rest
        else [] :: collapseLinesAux true rest
      else wsCollapse line :: collapseLinesAux false rest := rfl

theorem collapse_out_fixed (M : List (List Char)) :
    ∀ b, ∀ l ∈ collapseLinesAux b M, wsCollapse l = l := by
  induction M with
  | nil => intro b l hl; simp [collapseLinesAux] at hl
  | cons line M' ih =>
    intro b l hl
    rw [collapseLinesAux_cons] at hl
    by_cases h : wsCollapse line = []
    · rw [if_pos h] at hl
      cases b with
      | true => exact ih true l (by simpa using hl)
      | false =>
        simp only [if_neg Bool.false_ne_true] at hl
        rcases List.mem_cons.mp hl with h2 | h2
        · subst h2; rfl
        · exact ih true l h2
    · rw [if_neg h] at hl
      rcases List.mem_cons.mp hl with h2 | h2
      · subst h2; exact wsCollapse_idem line
      · exact ih false l h2

theorem collapse_out_chain (M : List (List Char)) :
    ∀ b, noConsecBlank (collapseLinesAux b M) ∧
      (b = true → (collapseLinesAux b M).head? ≠ some []) := by
  induction M with
  | nil =>
    intro b
    constructor
    · exact List.chain'_nil
    · intro _; simp [collapseLinesAux]
  | cons line M' ih =>
    intro b
    rw [collapseLinesAux_cons]
    by_cases h : wsCollapse line = []
    · rw [if_pos h]
      cases b with
      | true => simpa using ih true
      | false =>
        simp only [if_neg Bool.false_ne_true]
        constructor
        · rw [noConsecBlank, List.chain'_cons']
          constructor
          · intro y hy hcon
            exact (ih true).2 rfl (by
              cases hh : (collapseLinesAux true M').head? with
              | none => simp [hh] at hy
              | some z =>
                rw [hh] at hy
                have : z = y := by simpa using hy
                subst this
                rw [hcon.2])
          · exact (ih true).1
        · intro hb; exact absurd hb (by simp)
    · rw [if_neg h]
      constructor
      · rw [noConsecBlank, List.chain'_cons']
        constructor
        · intro y hy hcon
          exact h hcon.1
        · exact (ih false).1
      · intro _
        simp only [List.head?_cons]
        intro heq
        exact h (by simpa using heq)

theorem collapse_fixed (M : List (List Char))
    (hfix : ∀ l ∈ M, wsCollapse l = l) (hnc : noConsecBlank M) :
    ∀ b, (b = true → M.head? ≠ some []) → collapseLinesAux b M = M := by
  induction M with
  | nil => intro b _; rfl
  | cons line M' ih =>
    intro b hb
    rw [collapseLinesAux_cons]
    have hline := hfix line (List.mem_cons_self _ _)
    by_cases h : line = []
    · subst h
      have hcb : wsCollapse ([] : List Char) = [] := rfl
      rw [if_pos hcb]
      have hbf : b = false := by
        cases b with
        | false => rfl
        | true => exact absurd (show ((([] : List Char)) :: M').head? =
            some [] from rfl) (hb rfl)
      subst hbf
      simp only [if_neg Bool.false_ne_true]
      congr 1
      apply ih (fun l hl => hfix l (List.mem_cons_of_mem _ hl))
        ((List.chain'_cons'.mp hnc).2)
      intro _
      cases M' with
      | nil => simp
      | cons r t =>
        have hr : r ≠ [] := by
          intro hr0
          exact (List.chain'_cons.mp hnc).1 ⟨rfl, hr0⟩
        simpa using hr
    · have hcne : wsCollapse line ≠ [] := by rw [hline]; exact h
      rw [if_neg hcne, hline]
      congr 1
      apply ih (fun l hl => hfix l (List.mem_cons_of_mem _ hl))
        ((List.chain'_cons'.mp hnc).2)
      intro hfalse
      exact absurd hfalse (by simp)

theorem mem_collapse (M : List (List Char)) :
    ∀ b l, l ∈ collapseLinesAux b M →
      l = [] ∨ ∃ line ∈ M, l = wsCollapse line := by
  induction M with
  | nil => intro b l hl; simp [collapseLinesAux] at hl
  | cons line M' ih =>
    intro b l hl
    rw [collapseLinesAux_cons] at hl
    by_cases h : wsCollapse line = []
    · rw [if_pos h] at hl
      cases b with
      | true =>
        rcases ih true l (by simpa using hl) with h2 | ⟨ln, hln, h2⟩
        · exact Or.inl h2
        · exact Or.inr ⟨ln, List.mem_cons_of_mem _ hln, h2⟩
      | false =>
        simp only [if_neg Bool.false_ne_true] at hl
        rcases List.mem_cons.mp hl with h2 | h2
        · exact Or.inl h2
        · rcases ih true l h2 with h3 | ⟨ln, hln, h3⟩
          · exact Or.inl h3
          · exact Or.inr ⟨ln, List.mem_cons_of_mem _ hln, h3⟩
    · rw [if_neg h] at hl
      rcases List.mem_cons.mp hl with h2 | h2
      · exact Or.inr ⟨line, List.mem_cons_self _ _, h2⟩
      · rcases ih false l h2 with h3 | ⟨ln, hln, h3⟩
        · exact Or.inl h3
        · exact Or.inr ⟨ln, List.mem_cons_of_mem _ hln, h3⟩

/-! ### The final collapse is a projection -/

theorem finalCollapse_joinNL_fix (M : List (List Char))
    (hfix : ∀ l ∈ M, wsCollapse l = l) (hnc : noConsecBlank M) :
    finalCollapse (pyStrip (joinNL M)) = pyStrip (joinNL M) := by
  have hheadM : ∀ l ∈ M, ∀ c, l.head? = some c → pyIsSpace c = false := by
    intro l hl c hc
    rw [← hfix l hl, wsCollapse_eq_joinSp] at hc
    exact joinSp_head_nonspace _ (pySplit_wf l) c hc
  have hlastM : ∀ l ∈ M, ∀ c, l.getLast? = some c → pyIsSpace c = false := by
    intro l hl c hc
    rw [← hfix l hl, wsCollapse_eq_joinSp] at hc
    exact joinSp_last_nonspace _ (pySplit_wf l) c hc
  have hB : pyStrip (joinNL M) = joinNL (dropTB (dropLB M)) :=
    pyStrip_joinNL M hheadM hlastM hnc
  rw [hB]
  have hsub : ∀ l ∈ dropTB (dropLB M), l ∈ M := fun l hl =>
    mem_dropLB M l (mem_dropTB _ l hl)
  have hfix' : ∀ l ∈ dropTB (dropLB M), wsCollapse l = l := fun l hl =>
    hfix l (hsub l hl)
  have hnc' : noConsecBlank (dropTB (dropLB M)) :=
    noConsec_dropTB _ (noConsec_dropLB _ hnc)
  have hbf' : ∀ l ∈ dropTB (dropLB M), ∀ c ∈ l, isBreakChar c = false := by
    intro l hl c hc
    rw [← hfix' l hl] at hc
    exact wsCollapse_no_break l c hc
  have hlastne : (dropTB (dropLB M)).getLast? ≠ some [] := by
    rw [dropTB, List.getLast?_reverse]
    exact head?_dropLB_ne_blank _
      ((noConsec_reverse _).mpr (noConsec_dropLB _ hnc))
  have hheadne : (dropTB (dropLB M)).head? ≠ some [] :=
    head?_prefix_ne_blank _ _ (dropTB_prefix_self _)
      (head?_dropLB_ne_blank M hnc)
  have hsl : pySplitlines (joinNL (dropTB (dropLB M))) = dropTB (dropLB M) :=
    splitlines_joinNL _ hbf' hlastne
  have hcl : collapseLinesAux false (dropTB (dropLB M)) =
      dropTB (dropLB M) :=
    collapse_fixed _ hfix' hnc' false (fun hf => absurd hf (by simp))
  have hhead' : ∀ l ∈ dropTB (dropLB M), ∀ c, l.head? = some c →
      pyIsSpace c = false := fun l hl => hheadM l (hsub l hl)
  have hlast' : ∀ l ∈ dropTB (dropLB M), ∀ c, l.getLast? = some c →
      pyIsSpace c = false := fun l hl => hlastM l (hsub l hl)
  show pyStrip (joinNL (collapseLinesAux false
    (pySplitlines (joinNL (dropTB (dropLB M)))))) = _
  rw [hsl, hcl, pyStrip_joinNL _ hhead' hlast' hnc',
    dropLB_id _ hheadne, dropTB_id _ hlastne]

theorem finalCollapse_fixed (y : List Char) :
    finalCollapse (finalCollapse y) = finalCollapse y := by
  show finalCollapse (pyStrip (joinNL
    (collapseLinesAux false (pySplitlines y)))) = _
  exact finalCollapse_joinNL_fix _ (collapse_out_fixed _ false)
    (collapse_out_chain _ false).1

/-! ### Markdown-free inputs pass every substitution unchanged -/

theorem mem_pyStrip_sub (s : List Char) (x : Char) (hx : x ∈ pyStrip s) :
    x ∈ s := by
  unfold pyStrip at hx
  have h1 := List.mem_reverse.mp hx
  have h2 := (List.dropWhile_sublist _).subset h1
  have h3 := List.mem_reverse.mp h2
  exact (List.dropWhile_sublist _).subset h3

theorem plainChar_not_digit (c : Char) (h : plainChar c = true) :
    isDigitChar c = false := by
  rw [plainChar] at h
  simp only [Bool.and_eq_true] at h
  simpa using h.2

theorem not_mem_of_plain (s : List Char)
    (h : ∀ x ∈ s, plainChar x = true) (c : Char)
    (hc : plainChar c = false) : c ∉ s := by
  intro hm
  rw [h c hm] at hc
  exact absurd hc (by simp)

theorem subScanAux_zero (hit : Option Char → List Char →
    Option (List Char × Nat)) (prev : Option Char) (s : List Char) :
    subScanAux hit 0 prev s = s := rfl

theorem subScanAux_succ_cons (hit : Option Char → List Char →
    Option (List Char × Nat)) (f : Nat) (prev : Option Char) (c : Char)
    (rest : List Char) :
    subScanAux hit (f + 1) prev (c :: rest) =
      match hit prev (c :: rest) with
      | some (r, k) =>
        if k = 0 then c :: subScanAux hit f (some c) rest
        else r ++ subScanAux hit f (((c :: rest).take k).getLast?)
          ((c :: rest).drop k)
      | none => c :: subScanAux hit f (some c) rest := rfl

theorem subScanAux_id (hit : Option Char → List Char →
    Option (List Char × Nat)) (P : Char → Bool)
    (hnone : ∀ prev s, (∀ x ∈ s, P x = true) → hit prev s = none) :
    ∀ fuel prev s, (∀ x ∈ s, P x = true) →
      subScanAux hit fuel prev s = s := by
  intro fuel
  induction fuel with
  | zero => intro prev s _; rfl
  | succ f ih =>
    intro prev s h
    cases s with
    | nil => rfl
    | cons c rest =>
      rw [subScanAux_succ_cons, hnone prev (c :: rest) h]
      rw [ih (some c) rest (fun x hx => h x (List.mem_cons_of_mem _ hx))]

theorem runSub_id (hit : Option Char → List Char →
    Option (List Char × Nat)) (P : Char → Bool)
    (hnone : ∀ prev s, (∀ x ∈ s, P x = true) → hit prev s = none)
    (s : List Char) (h : ∀ x ∈ s, P x = true) : runSub hit s = s :=
  subScanAux_id hit P hnone s.length none s h

theorem fenceTry_none (prev : Option Char) (s : List Char)
    (h : ∀ x ∈ s, plainChar x = true) : fenceTry prev s = none := by
  cases hp : ("```".data).isPrefixOf s with
  | true =>
    have hpre : "```".data <+: s := List.isPrefixOf_iff_prefix.mp hp
    have hmem : '`' ∈ s := hpre.sublist.subset (by decide)
    exact absurd (h '`' hmem) (by decide)
  | false => simp [fenceTry, hp]

theorem linkTry_none (prev : Option Char) (s : List Char)
    (h : ∀ x ∈ s, plainChar x = true) : linkTry prev s = none := by
  unfold linkTry
  split
  · next rest =>
    exact absurd (h '[' (List.mem_cons_self _ _)) (by decide)
  · rfl

theorem inlineCodeTry_none (prev : Option Char) (s : List Char)
    (h : ∀ x ∈ s, plainChar x = true) : inlineCodeTry prev s = none := by
  unfold inlineCodeTry
  split
  · next rest =>
    exact absurd (h '`' (List.mem_cons_self _ _)) (by decide)
  · rfl

theorem headerTry_none (prev : Option Char) (s : List Char)
    (h : ∀ x ∈ s, plainChar x = true) : headerTry prev s = none := by
  cases hals : atLineStart prev with
  | false => simp [headerTry, hals]
  | true =>
    unfold headerTry
    rw [hals]
    simp only [if_true]
    by_cases hw : 3 < (s.takeWhile pyIsSpace).length
    · rw [if_pos hw]
    · rw [if_neg hw]
      split
      · next tail heq =>
        have hmem : '#' ∈ s := List.drop_subset _ s
          (by rw [heq]; exact List.mem_cons_self _ _)
        exact absurd (h '#' hmem) (by decide)
      · rfl

theorem bulletTry_none (prev : Option Char) (s : List Char)
    (h : ∀ x ∈ s, plainChar x = true) : bulletTry prev s = none := by
  cases hals : atLineStart prev with
  | false => simp [bulletTry, hals]
  | true =>
    unfold bulletTry
    rw [hals]
    simp only [if_true]
    split
    · next c2 rest2 heq =>
      have hc2 : plainChar c2 = true := h c2 (List.drop_subset _ s
        (by rw [heq]; exact List.mem_cons_self _ _))
      have hd : c2 ≠ '-' := fun he => by
        subst he; revert hc2; decide
      have hs : c2 ≠ '*' := fun he => by
        subst he; revert hc2; decide
      have hp : c2 ≠ '+' := fun he => by
        subst he; revert hc2; decide
      simp [hd, hs, hp]
    · rfl

theorem blockquoteTry_none (prev : Option Char) (s : List Char)
    (h : ∀ x ∈ s, plainChar x = true) : blockquoteTry prev s = none := by
  cases hals : atLineStart prev with
  | false => simp [blockquoteTry, hals]
  | true =>
    unfold blockquoteTry
    rw [hals]
    simp only [if_true]
    split
    · next rest2 heq =>
      have hmem : '>' ∈ s := List.drop_subset _ s
        (by rw [heq]; exact List.mem_cons_self _ _)
      exact absurd (h '>' hmem) (by decide)
    · rfl

theorem boldBranch_plain_none (m : Char) (s : List Char)
    (h : ∀ x ∈ s, plainChar x = true) (hm : plainChar m = false) :
    boldBranch [m, m] s = none := by
  cases hp : ([m, m]).isPrefixOf s with
  | true =>
    have hpre : [m, m] <+: s := List.isPrefixOf_iff_prefix.mp hp
    have hmem : m ∈ s := hpre.sublist.subset (List.mem_cons_self _ _)
    rw [h m hmem] at hm
    exact absurd hm (by simp)
  | false => simp [boldBranch, hp]

theorem boldTry_none (prev : Option Char) (s : List Char)
    (h : ∀ x ∈ s, plainChar x = true) : boldTry prev s = none := by
  unfold boldTry
  rw [boldBranch_plain_none '*' s h (by decide),
    boldBranch_plain_none '_' s h (by decide)]

theorem italicTry_none (prev : Option Char) (s : List Char)
    (h : ∀ x ∈ s, plainChar x = true) : italicTry prev s = none := by
  unfold italicTry
  split
  · next rest =>
    exact absurd (h '*' (List.mem_cons_self _ _)) (by decide)
  · split
    · next rest =>
      exact absurd (h '_' (List.mem_cons_self _ _)) (by decide)
    · rfl

theorem trailingStarTry_none (prev : Option Char) (s : List Char)
    (h : ∀ x ∈ s, plainChar x = true) : trailingStarTry prev s = none := by
  unfold trailingStarTry
  split
  · next rest =>
    exact absurd (h '*' (List.mem_cons_self _ _)) (by decide)
  · rfl

theorem parseNumPrefix_none (c : Char) (rest : List Char)
    (h : isDigitChar c = false) : parseNumPrefix (c :: rest) = none := by
  unfold parseNumPrefix
  split
  · next d1 d2 t heq =>
    injection heq with h1 h2
    subst h1
    simp [h]
  · next d1 t hno heq =>
    injection heq with h1 h3
    subst h1
    simp [h]
  · rfl

theorem findNumberedItemsAux_succ_cons (f : Nat) (prev : Option Char)
    (c : Char) (rest : List Char) :
    findNumberedItemsAux (f + 1) prev (c :: rest) =
      if (match prev with | some p => isDigitChar p | none => false) then
        findNumberedItemsAux f (some c) rest
      else
        match parseNumPrefix (c :: rest) with
        | none => findNumberedItemsAux f (some c) rest
        | some (v, k) =>
          let w := (((c :: rest).drop k).takeWhile pyIsSpace).length
          if w = 0 then findNumberedItemsAux f (some c) rest
          else
            v :: findNumberedItemsAux f
              (((c :: rest).take (k + w)).getLast?)
              ((c :: rest).drop (k + w)) := rfl

theorem findNumberedItemsAux_plain (fuel : Nat) :
    ∀ prev s, (∀ x ∈ s, plainChar x = true) →
      findNumberedItemsAux fuel prev s = [] := by
  induction fuel with
  | zero => intro prev s _; rfl
  | succ f ih =>
    intro prev s h
    cases s with
    | nil => rfl
    | cons c rest =>
      rw [findNumberedItemsAux_succ_cons]
      have hrec : findNumberedItemsAux f (some c) rest = [] :=
        ih (some c) rest (fun x hx => h x (List.mem_cons_of_mem _ hx))
      split
      · exact hrec
      · rw [parseNumPrefix_none c rest
          (plainChar_not_digit c (h c (List.mem_cons_self _ _)))]
        exact hrec

theorem findNumberedItems_plain (s : List Char)
    (h : ∀ x ∈ s, plainChar x = true) : findNumberedItems s = [] :=
  findNumberedItemsAux_plain s.length none s h

theorem splitInlineNumberedList_plain (s : List Char)
    (h : ∀ x ∈ s, plainChar x = true) :
    splitInlineNumberedList s = s := by
  unfold splitInlineNumberedList
  rw [findNumberedItems_plain s h]
  simp

theorem coerce_plain (s : List Char)
    (h : ∀ x ∈ s, plainChar x = true) :
    coercePlainTextReply s = finalCollapse (pyStrip s) := by
  by_cases hc : pyStrip s = []
  · unfold coercePlainTextReply
    rw [if_pos hc, hc]
    rfl
  · have hcl : ∀ x ∈ pyStrip s, plainChar x = true := fun x hx =>
      h x (mem_pyStrip_sub s x hx)
    have hfil : List.filter (fun c => decide (c ≠ '`')) (pyStrip s) =
        pyStrip s := by
      apply List.filter_eq_self.mpr
      intro a ha
      simp only [decide_eq_true_eq]
      intro heq
      exact not_mem_of_plain (pyStrip s) hcl '`' (by decide) (heq ▸ ha)
    unfold coercePlainTextReply
    rw [if_neg hc]
    simp only [runSub_id fenceTry plainChar fenceTry_none _ hcl,
      runSub_id linkTry plainChar linkTry_none _ hcl,
      runSub_id inlineCodeTry plainChar inlineCodeTry_none _ hcl,
      runSub_id headerTry plainChar headerTry_none _ hcl,
      runSub_id bulletTry plainChar bulletTry_none _ hcl,
      runSub_id blockquoteTry plainChar blockquoteTry_none _ hcl,
      runSub_id boldTry plainChar boldTry_none _ hcl,
      runSub_id italicTry plainChar italicTry_none _ hcl,
      runSub_id trailingStarTry plainChar trailingStarTry_none _ hcl,
      hfil, splitInlineNumberedList_plain _ hcl]

theorem coerce_plain_closed (s : List Char)
    (h : ∀ x ∈ s, plainChar x = true) :
    ∀ x ∈ coercePlainTextReply s, plainChar x = true := by
  rw [coerce_plain s h]
  intro x hx
  unfold finalCollapse at hx
  have hx1 := mem_pyStrip_sub _ x hx
  rcases mem_joinNL _ x hx1 with ⟨l, hl, hxl⟩ | hnl
  · rcases mem_collapse _ false l hl with hl0 | ⟨line, hline, hleq⟩
    · subst hl0; simp at hxl
    · subst hleq
      rcases mem_wsCollapse line x hxl with hxline | hsp
      · have hx2 : x ∈ pyStrip s :=
          pySplitlines_sub _ line hline x hxline
        exact h x (mem_pyStrip_sub s x hx2)
      · subst hsp; decide
  · subst hnl; decide

/-- C9 counterexample: `coerce_plain_text_reply` is not idempotent. On
the input "`[a]`(http://b)" the first pass strips the inline code span
around "[a]", producing "[a](http://b)"; the second pass then matches
the markdown-link pattern and rewrites it to "a (http://b)". -/
theorem coerce_reply_not_idempotent :
    coercePlainTextReply "`[a]`(http://b)".data = "[a](http://b)".data ∧
    coercePlainTextReply (coercePlainTextReply "`[a]`(http://b)".data) =
      "a (http://b)".data ∧
    coercePlainTextReply (coercePlainTextReply "`[a]`(http://b)".data) ≠
      coercePlainTextReply "`[a]`(http://b)".data := by
  refine ⟨by decide, by decide, by decide⟩

/-- C9 (amended): `coerce_plain_text_reply` is idempotent on every
input free of markdown trigger characters (backtick, asterisk,
underscore, hash, greater-than, left bracket, hyphen, plus and digits):
on such inputs every substitution pass is the identity, so one pass
reduces to whitespace normalisation, which is a projection. On general
inputs idempotence fails (see the counterexample). -/
theorem coerce_reply_idempotent_on_plain (s : List Char)
    (h : ∀ x ∈ s, plainChar x = true) :
    coercePlainTextReply (coercePlainTextReply s) =
      coercePlainTextReply s := by
  have h2 := coerce_plain_closed s h
  rw [coerce_plain (coercePlainTextReply s) h2, coerce_plain s h]
  have hps : pyStrip (finalCollapse (pyStrip s)) =
      finalCollapse (pyStrip s) := by
    show pyStrip (pyStrip (joinNL (collapseLinesAux false
      (pySplitlines (pyStrip s))))) = _
    exact pyStrip_idem _
  rw [hps]
  exact finalCollapse_fixed (pyStrip s)

/-- Witness for C9's amended theorem at the markdown-free prompt
"hello   world, how are you". -/
theorem coerce_reply_idempotent_on_plain_witness :
    (∀ x ∈ "hello   world, how are you".data, plainChar x = true) ∧
    coercePlainTextReply (coercePlainTextReply
      "hello   world, how are you".data) =
      coercePlainTextReply "hello   world, how are you".data :=
  ⟨by decide, coerce_reply_idempotent_on_plain
    "hello   world, how are you".data (by decide)⟩

/-! ## Claim C6: history writes only after a successful send -/

theorem getHistory_turns_preserved (ttl : Nat) (st : ChatStore)
    (key : String) (now : Nat) :
    ∀ k c, (getHistory ttl st key now).2 k = some c →
      ∃ c0, chatPurge st now k = some c0 ∧ c0.turns = c.turns := by
  intro k c hk
  simp only [getHistory] at hk
  cases hq : chatPurge st now key with
  | none =>
    rw [hq] at hk
    exact ⟨c, hk, rfl⟩
  | some c1 =>
    rw [hq] at hk
    simp only at hk
    by_cases hkk : k = key
    · rw [if_pos hkk] at hk
      have hc : { c1 with expiresAt := now + max 1 ttl } = c := by
        simpa using hk
      subst hkk
      exact ⟨c1, hq, by rw [← hc]⟩
    · rw [if_neg hkk] at hk
      exact ⟨c, hk, rfl⟩

/-- C6: in `handle_chat_mention`, `append_turn` runs only after the
transport send of the assistant reply succeeds. When the send oracle
fails, no turn is appended: the store is exactly what `get_history` left
(the same conversations with the read conversation's expiry refreshed),
so every stored conversation keeps the turn list it had after the purge.
(The `except SignalSendError, WhatsAppSendError, TelegramSendError:`
clause guarding this path is written in Python-2 tuple syntax — a
`SyntaxError` under Python 3 — so the embedding models the intended
parenthesized form.) -/
theorem chat_send_failure_leaves_history
    (maxTurns ttl : Nat) (st : ChatStore) (key systemPrompt prompt : String)
    (forcePlain : Bool)
    (generate : List ChatTurn → Except String (List Char))
    (send : List Char → Except Unit Unit) (now : Nat)
    (hsend : ∀ m, send m = Except.error ()) :
    (handleChatMention maxTurns ttl st key systemPrompt prompt forcePlain
        generate send now).appended = false ∧
    (handleChatMention maxTurns ttl st key systemPrompt prompt forcePlain
        generate send now).store = (getHistory ttl st key now).2 ∧
    (∀ k c, (handleChatMention maxTurns ttl st key systemPrompt prompt
        forcePlain generate send now).store k = some c →
      ∃ c0, chatPurge st now k = some c0 ∧ c0.turns = c.turns) := by
  have hmain : (handleChatMention maxTurns ttl st key systemPrompt prompt
      forcePlain generate send now).appended = false ∧
      (handleChatMention maxTurns ttl st key systemPrompt prompt forcePlain
        generate send now).store = (getHistory ttl st key now).2 := by
    simp only [handleChatMention, hsend]
    cases generate (buildChatMessages systemPrompt
        (getHistory ttl st key now).1 prompt) with
    | error e => exact ⟨rfl, rfl⟩
    | ok reply0 => exact ⟨rfl, rfl⟩
  refine ⟨hmain.1, hmain.2, ?_⟩
  intro k c hk
  rw [hmain.2] at hk
  exact getHistory_turns_preserved ttl st key now k c hk

/-- Witness for C6's theorem: an always-failing send oracle at a
concrete conversation leaves the empty store unchanged and appends
nothing. -/
theorem chat_send_failure_leaves_history_witness :
    (handleChatMention 10 300 emptyChatStore "conv" "sys" "hello" true
        (fun _ => Except.ok "hi there".data)
        (fun _ => Except.error ()) 5).appended = false ∧
    (handleChatMention 10 300 emptyChatStore "conv" "sys" "hello" true
        (fun _ => Except.ok "hi there".data)
        (fun _ => Except.error ()) 5).store =
      (getHistory 300 emptyChatStore "conv" 5).2 ∧
    (∀ k c, (handleChatMention 10 300 emptyChatStore "conv" "sys" "hello"
        true (fun _ => Except.ok "hi there".data)
        (fun _ => Except.error ()) 5).store k = some c →
      ∃ c0, chatPurge emptyChatStore 5 k = some c0 ∧
        c0.turns = c.turns) :=
  chat_send_failure_leaves_history 10 300 emptyChatStore "conv" "sys"
    "hello" true (fun _ => Except.ok "hi there".data)
    (fun _ => Except.error ()) 5 (fun _ => rfl)
